import Mathlib

/-!
Verification development for the BE-policy-service STG→CORE reconciliation
pipeline.  The definitions below are shallow embeddings of the Python/SQL
source:

* `FinCore` embeds `app/elt/finproduct/04_stg_to_core.py` — the SCD2
  reconciler for `core.product` / `core.product_option`
  (`BASE_CLOSE_SQL`, `BASE_INSERT_SQL`, `BASE_TOUCH_SQL`,
  `OPTION_UPSERT_SQL`, `RECOMPUTE_OPTION_SET_HASH_SQL`, the Gemini
  special-condition classifier) and `app/elt/finproduct/02_stg_base.py`
  (`extract_base_records`).
* `PolicyCore` embeds `app/elt/policy/04_stg_to_core.py`
  (`upsert_policy`, `sync_policy_keywords`, `sync_policy_region`,
  `parse_modified_datetime`), `app/elt/policy/02_stg_landing.py`
  (`pick_policy_id`) and `app/elt/policy/05_update_policy_status.py`.

Modelling conventions: timestamps are `Nat` ticks, JSON payloads are opaque
`String`s (cryptographic digests are abstracted by carrying the canonical
serialization itself, an injective stand-in), SQL `NULL` is `Option`, and a
multi-statement transaction is function composition on an explicit table
state.  Each data-modifying SQL statement is one Lean function on the state;
the three sub-statements of the single `OPTION_UPSERT_SQL` statement all
read the pre-statement snapshot, matching PostgreSQL CTE semantics.
-/

namespace FinCore

/-- The natural key of a finproduct CORE row:
`(product_type, ext_source, ext_id)` — `ext_id` is `fin_prdt_cd`. -/
structure NatKey where
  productType : String
  extSource : String
  extId : String
deriving Repr, DecidableEq

/-- One row of `stg.finproduct_base_landing` (02_stg_base.py DDL):
`(run_ts, product_type, ext_source, fin_prdt_cd, payload, content_hash)`
plus the generated column `dcls_month = payload->>'dcls_month'`. -/
structure BaseLanding where
  productType : String
  extSource : String
  finPrdtCd : String
  payload : String
  contentHash : String
  runTs : Nat
  dclsMonth : Option String
deriving Repr, DecidableEq

/-- One row of `core.product` (BOOTSTRAP_SQL): surrogate `id`, the natural
key columns, `payload`, `content_hash`, the generated column `dcls_month`,
the SCD2 columns `is_current` / `valid_from_ts` / `valid_to_ts`, the derived
aggregates `options_set_hash` / `options_count`, and `updated_at`. -/
structure ProductRow where
  id : Nat
  productType : String
  extSource : String
  extId : String
  payload : String
  contentHash : String
  dclsMonth : Option String
  isCurrent : Bool
  validFromTs : Nat
  validToTs : Option Nat
  optionsSetHash : Option String
  optionsCount : Option Nat
  updatedAt : Nat
deriving Repr, DecidableEq

/-- One row of `core.product_option` (BOOTSTRAP_SQL): owned by `product_id`,
with the generated key columns `save_trm` / `intr_rate_type` / `rsrv_type`,
the rate columns used by the aggregate hash, and the SCD2 columns. -/
structure OptionRow where
  id : Nat
  productId : Nat
  payload : String
  contentHash : String
  dclsMonth : Option String
  saveTrm : Option Int
  intrRateType : Option String
  rsrvType : Option String
  intrRate : Option String
  intrRate2 : Option String
  isCurrent : Bool
  validFromTs : Nat
  validToTs : Option Nat
  updatedAt : Nat
deriving Repr, DecidableEq

/-- One row of `stg.finproduct_option_landing` (03_stg_option.py DDL) with
its generated columns. -/
structure OptionLanding where
  productType : String
  extSource : String
  finPrdtCd : String
  payload : String
  contentHash : String
  runTs : Nat
  dclsMonth : Option String
  saveTrm : Option Int
  intrRateType : Option String
  rsrvType : Option String
  intrRate : Option String
  intrRate2 : Option String
deriving Repr, DecidableEq

/-- The CORE-side state the finproduct reconciler mutates: the two tables
and the serial-id counters backing `BIGSERIAL id`. -/
structure FinState where
  products : List ProductRow
  options : List OptionRow
  nextPid : Nat
  nextOid : Nat
deriving Repr, DecidableEq

def BaseLanding.key (b : BaseLanding) : NatKey :=
  ⟨b.productType, b.extSource, b.finPrdtCd⟩

def ProductRow.key (p : ProductRow) : NatKey :=
  ⟨p.productType, p.extSource, p.extId⟩

/-- `to_date(COALESCE(dcls_month,'190001'),'YYYYMM')`: the candidate sort
key over the optional disclosure month.  For the `YYYYMM` strings the
source stores, the date order agrees with lexicographic string order, which
is how the embedding compares it. -/
def monthKey (m : Option String) : String := m.getD "190001"

/-- SQL text `<` (byte/character order).  `String.lt` is exactly the
lexicographic order of the character lists; comparing via `String.data`
keeps the comparison evaluable. -/
def strLtB (a b : String) : Bool := decide (a.data < b.data)

/-- The `ORDER BY` of the `candidates` CTE shared by `BASE_CLOSE_SQL`,
`BASE_INSERT_SQL` and `BASE_TOUCH_SQL`:
`to_date(COALESCE(b.dcls_month,'190001'),'YYYYMM') DESC, b.run_ts DESC`.
`baseBetter a b` says `a` sorts strictly before `b`.  Note the base
ordering has no `content_hash` component. -/
def baseBetter (a b : BaseLanding) : Bool :=
  strLtB (monthKey b.dclsMonth) (monthKey a.dclsMonth) ||
    (monthKey a.dclsMonth == monthKey b.dclsMonth && decide (b.runTs < a.runTs))

/-- The row `ROW_NUMBER() ... = 1` selects from one partition: the first
row, in table order, that no other row sorts strictly before.  This models
the fact that `ROW_NUMBER` ties (rows neither of which sorts strictly
before the other) are resolved by physical row order. -/
def pickBest (better : α → α → Bool) : List α → Option α
  | [] => none
  | x :: xs =>
    match pickBest better xs with
    | none => some x
    | some y => if better y x then some y else some x

/-- The landing rows of one `PARTITION BY product_type, ext_source,
fin_prdt_cd` partition, restricted to `b.product_type = :product_type`. -/
def baseRowsFor (landing : List BaseLanding) (pt : String) (k : NatKey) :
    List BaseLanding :=
  landing.filter (fun b => b.productType == pt && b.key == k)

/-- The rank-1 candidate of the `candidates` CTE for one natural key. -/
def candB (landing : List BaseLanding) (pt : String) (k : NatKey) :
    Option BaseLanding :=
  pickBest baseBetter (baseRowsFor landing pt k)

/-- The `UPDATE` of `BASE_CLOSE_SQL`:
`SET is_current = FALSE, valid_to_ts = now(), updated_at = now()`. -/
def closeProduct (now : Nat) (p : ProductRow) : ProductRow :=
  { p with isCurrent := false, validToTs := some now, updatedAt := now }

/-- The per-row effect of `BASE_CLOSE_SQL`: a current row joined to its
partition's rank-1 candidate with a differing `content_hash` is closed. -/
def baseCloseRow (landing : List BaseLanding) (pt : String) (now : Nat)
    (p : ProductRow) : ProductRow :=
  if p.isCurrent then
    match candB landing pt p.key with
    | some c => if p.contentHash ≠ c.contentHash then closeProduct now p else p
    | none => p
  else p

/-- `BASE_CLOSE_SQL` over the whole `core.product` table. -/
def baseCloseStep (landing : List BaseLanding) (pt : String) (now : Nat)
    (s : FinState) : FinState :=
  { s with products := s.products.map (baseCloseRow landing pt now) }

/-- The row `BASE_INSERT_SQL` inserts for a candidate: `is_current = TRUE`,
`valid_from_ts/created_at/updated_at = now()`; the generated columns come
from the same payload as the landing row's. -/
def mkProductRow (id : Nat) (c : BaseLanding) (now : Nat) : ProductRow :=
  { id := id, productType := c.productType, extSource := c.extSource,
    extId := c.finPrdtCd, payload := c.payload, contentHash := c.contentHash,
    dclsMonth := c.dclsMonth, isCurrent := true, validFromTs := now,
    validToTs := none, optionsSetHash := none, optionsCount := none,
    updatedAt := now }

/-- The `is_current = TRUE` rows of one natural key. -/
def currentsWithKey (ps : List ProductRow) (k : NatKey) : List ProductRow :=
  ps.filter (fun p => p.isCurrent && p.key == k)

/-- The distinct natural keys present in the landing partition — the keys
the `candidates` CTE has a rank-1 row for. -/
def candKeys (landing : List BaseLanding) (pt : String) : List NatKey :=
  ((landing.filter (fun b => b.productType == pt)).map BaseLanding.key).dedup

/-- The `need_insert` rows `BASE_INSERT_SQL` produces for one natural key:
the rank-1 candidate `LEFT JOIN`ed to the current CORE rows of its key,
kept when the join finds no row (`p.id IS NULL`) or once per joined row
whose `content_hash` differs. -/
def baseInsertFor (landing : List BaseLanding) (pt : String)
    (ps : List ProductRow) (k : NatKey) : List BaseLanding :=
  match candB landing pt k with
  | none => []
  | some c =>
    let curs := currentsWithKey ps k
    if curs.isEmpty then [c]
    else (curs.filter (fun p => p.contentHash != c.contentHash)).map (fun _ => c)

/-- All `need_insert` rows of `BASE_INSERT_SQL`. -/
def baseNeedInsert (landing : List BaseLanding) (pt : String)
    (ps : List ProductRow) : List BaseLanding :=
  (candKeys landing pt).flatMap (baseInsertFor landing pt ps)

/-- Materialize the inserted rows, drawing consecutive surrogate ids from
the `BIGSERIAL` counter starting at `base`. -/
def assignIds (base now : Nat) : List BaseLanding → List ProductRow
  | [] => []
  | c :: cs => mkProductRow base c now :: assignIds (base + 1) now cs

/-- `BASE_INSERT_SQL`: append the new current versions. -/
def baseInsertStep (landing : List BaseLanding) (pt : String) (now : Nat)
    (s : FinState) : FinState :=
  let toIns := baseNeedInsert landing pt s.products
  { s with
    products := s.products ++ assignIds s.nextPid now toIns,
    nextPid := s.nextPid + toIns.length }

/-- The per-row effect of `BASE_TOUCH_SQL`: a current row whose
`content_hash` equals its rank-1 candidate's gets `updated_at = now()`. -/
def baseTouchRow (landing : List BaseLanding) (pt : String) (now : Nat)
    (p : ProductRow) : ProductRow :=
  if p.isCurrent then
    match candB landing pt p.key with
    | some c => if p.contentHash == c.contentHash then { p with updatedAt := now } else p
    | none => p
  else p

/-- `BASE_TOUCH_SQL` over the whole table. -/
def baseTouchStep (landing : List BaseLanding) (pt : String) (now : Nat)
    (s : FinState) : FinState :=
  { s with products := s.products.map (baseTouchRow landing pt now) }

/-- `count(rows where natural_key = k AND is_current)`. -/
def countCurrent (ps : List ProductRow) (k : NatKey) : Nat :=
  (currentsWithKey ps k).length

/-- The single-current invariant of `core.product`: at most one
`is_current = TRUE` row per natural key (the partial unique index
`uq_product_current`). -/
def singleCurrent (ps : List ProductRow) : Prop :=
  ∀ k, countCurrent ps k ≤ 1

/-- The normalized option key of `uq_option_current`:
`(COALESCE(save_trm,-1), COALESCE(intr_rate_type,''), COALESCE(rsrv_type,''))`. -/
structure OptKey where
  saveTrm : Int
  intrRateType : String
  rsrvType : String
deriving Repr, DecidableEq

def OptionRow.okey (po : OptionRow) : OptKey :=
  ⟨po.saveTrm.getD (-1), po.intrRateType.getD "", po.rsrvType.getD ""⟩

def OptionLanding.okey (o : OptionLanding) : OptKey :=
  ⟨o.saveTrm.getD (-1), o.intrRateType.getD "", o.rsrvType.getD ""⟩

/-- A row of the `base_now` CTE of `OPTION_UPSERT_SQL`: the projection of a
current product of the partition. -/
structure BaseNowRow where
  productId : Nat
  extSource : String
  extId : String
  dclsMonth : Option String
deriving Repr, DecidableEq

def baseNow (pt : String) (ps : List ProductRow) : List BaseNowRow :=
  (ps.filter (fun p => p.isCurrent && p.productType == pt)).map
    (fun p => ⟨p.id, p.extSource, p.extId, p.dclsMonth⟩)

/-- A row of the `opt_raw` CTE: an option landing row joined to its owning
current product (`bn.ext_source = o.ext_source AND bn.ext_id = o.fin_prdt_cd
AND (o.dcls_month IS NULL OR o.dcls_month = bn.dcls_month)`), carrying
`eff_month = COALESCE(o.dcls_month, bn.dcls_month)`; the normalized option
key columns are the `COALESCE` projections of the landing row. -/
structure OptRaw where
  o : OptionLanding
  productId : Nat
  effMonth : Option String
deriving Repr, DecidableEq

def OptRaw.okey (r : OptRaw) : OptKey := r.o.okey

def optRaw (landingO : List OptionLanding) (pt : String)
    (bns : List BaseNowRow) : List OptRaw :=
  (landingO.filter (fun o => o.productType == pt)).flatMap (fun o =>
    (bns.filter (fun bn => bn.extSource == o.extSource && bn.extId == o.finPrdtCd
        && (o.dclsMonth.isNone || o.dclsMonth == bn.dclsMonth))).map
      (fun bn => ⟨o, bn.productId, o.dclsMonth <|> bn.dclsMonth⟩))

/-- The `ORDER BY` of the `opt_canon` CTE:
`to_date(COALESCE(eff_month,'190001'),'YYYYMM') DESC, run_ts DESC,
content_hash DESC` — unlike the base ordering it ends with a
`content_hash` tie-break. -/
def optBetter (a b : OptRaw) : Bool :=
  strLtB (monthKey b.effMonth) (monthKey a.effMonth) ||
    (monthKey a.effMonth == monthKey b.effMonth &&
      (decide (b.o.runTs < a.o.runTs) ||
        (a.o.runTs == b.o.runTs && strLtB b.o.contentHash a.o.contentHash)))

/-- The claim's tie-break order, written from the spec's words as the
refinement reference: declared effective period descending (a missing
period carrying the source's 1900-01 default), then observation time
descending, then content hash descending. -/
def claimedTieBreakO (a b : OptRaw) : Bool :=
  strLtB (monthKey b.effMonth) (monthKey a.effMonth) ||
    (monthKey a.effMonth == monthKey b.effMonth &&
      (decide (b.o.runTs < a.o.runTs) ||
        (a.o.runTs == b.o.runTs && strLtB b.o.contentHash a.o.contentHash)))

/-- One `PARTITION BY product_id, k_save_trm, k_intr_rate_type, k_rsrv_type`
partition of `opt_raw`. -/
def optRowsFor (rs : List OptRaw) (pid : Nat) (ok : OptKey) : List OptRaw :=
  rs.filter (fun r => r.productId == pid && r.okey == ok)

/-- The `rn = 1` row of one partition — one `opt_candidates` entry. -/
def candO (rs : List OptRaw) (pid : Nat) (ok : OptKey) : Option OptRaw :=
  pickBest optBetter (optRowsFor rs pid ok)

/-- The partitions `opt_canon` ranks. -/
def optCandPairs (rs : List OptRaw) : List (Nat × OptKey) :=
  (rs.map (fun r => (r.productId, r.okey))).dedup

/-- The `closed` CTE's `SET is_current = FALSE, valid_to_ts = now(),
updated_at = now()`. -/
def closeOption (now : Nat) (po : OptionRow) : OptionRow :=
  { po with isCurrent := false, validToTs := some now, updatedAt := now }

/-- The per-row effect of the `closed` and `touched` CTEs of
`OPTION_UPSERT_SQL` on an existing row: a current row whose candidate (same
`product_id` and normalized option key) has a differing hash is closed; one
whose candidate's hash matches is touched. -/
def optUpdateRow (rs : List OptRaw) (now : Nat) (po : OptionRow) : OptionRow :=
  if po.isCurrent then
    match candO rs po.productId po.okey with
    | some oc =>
      if po.contentHash ≠ oc.o.contentHash then closeOption now po
      else { po with updatedAt := now }
    | none => po
  else po

/-- The row the `inserted` CTE creates for a candidate. -/
def mkOptionRow (id : Nat) (oc : OptRaw) (now : Nat) : OptionRow :=
  { id := id, productId := oc.productId, payload := oc.o.payload,
    contentHash := oc.o.contentHash, dclsMonth := oc.o.dclsMonth,
    saveTrm := oc.o.saveTrm, intrRateType := oc.o.intrRateType,
    rsrvType := oc.o.rsrvType, intrRate := oc.o.intrRate,
    intrRate2 := oc.o.intrRate2, isCurrent := true, validFromTs := now,
    validToTs := none, updatedAt := now }

/-- The `is_current = TRUE` option rows of one `(product_id, option key)`
group. -/
def currentOptsWithKey (opts : List OptionRow) (pid : Nat) (ok : OptKey) :
    List OptionRow :=
  opts.filter (fun po => po.isCurrent && po.productId == pid && po.okey == ok)

/-- The `inserted` CTE rows of one partition: the candidate `LEFT JOIN`ed to
the current option rows of its key, kept when no row matches
(`cur.id IS NULL`) or once per matched row whose hash differs. -/
def optInsertFor (rs : List OptRaw) (opts : List OptionRow)
    (pk : Nat × OptKey) : List OptRaw :=
  match candO rs pk.1 pk.2 with
  | none => []
  | some oc =>
    let curs := currentOptsWithKey opts pk.1 pk.2
    if curs.isEmpty then [oc]
    else (curs.filter (fun po => po.contentHash != oc.o.contentHash)).map
      (fun _ => oc)

def optNeedInsert (rs : List OptRaw) (opts : List OptionRow) : List OptRaw :=
  (optCandPairs rs).flatMap (optInsertFor rs opts)

def assignOptIds (base now : Nat) : List OptRaw → List OptionRow
  | [] => []
  | oc :: ocs => mkOptionRow base oc now :: assignOptIds (base + 1) now ocs

/-- `OPTION_UPSERT_SQL`: one SQL statement whose `closed` / `inserted` /
`touched` data-modifying CTEs all read the same pre-statement snapshot of
`core.product_option` (PostgreSQL CTE semantics), with `base_now` and the
candidates computed from the current products of the partition. -/
def optionUpsertStep (landingO : List OptionLanding) (pt : String) (now : Nat)
    (s : FinState) : FinState :=
  let rs := optRaw landingO pt (baseNow pt s.products)
  let toIns := optNeedInsert rs s.options
  { s with
    options := s.options.map (optUpdateRow rs now) ++ assignOptIds s.nextOid now toIns,
    nextOid := s.nextOid + toIns.length }

/-- The `is_current = TRUE` option rows owned by one product. -/
def currentOptsOf (opts : List OptionRow) (pid : Nat) : List OptionRow :=
  opts.filter (fun po => po.isCurrent && po.productId == pid)

/-- `format('%s|%s|%s|%s|%s', COALESCE(save_trm,-1),
COALESCE(intr_rate_type,''), COALESCE(rsrv_type,''),
COALESCE(TO_CHAR(intr_rate,...),''), COALESCE(TO_CHAR(intr_rate2,...),''))`
— the numerics are modeled as their stored decimal strings. -/
def optAggPart (po : OptionRow) : String :=
  toString (po.saveTrm.getD (-1)) ++ "|" ++ po.intrRateType.getD "" ++ "|" ++
    po.rsrvType.getD "" ++ "|" ++ po.intrRate.getD "" ++ "|" ++
    po.intrRate2.getD ""

/-- `NULLS LAST` comparison of optional sort keys (the PostgreSQL default
for ascending order). -/
def cmpOptionNullsLast {α : Type} (cmp : α → α → Ordering) :
    Option α → Option α → Ordering
  | none, none => .eq
  | none, some _ => .gt
  | some _, none => .lt
  | some a, some b => cmp a b

/-- The `string_agg ... ORDER BY save_trm, intr_rate_type, rsrv_type,
intr_rate, intr_rate2` sort key. -/
def cmpOptionRow (a b : OptionRow) : Ordering :=
  (cmpOptionNullsLast compare a.saveTrm b.saveTrm).then
    ((cmpOptionNullsLast compare a.intrRateType b.intrRateType).then
      ((cmpOptionNullsLast compare a.rsrvType b.rsrvType).then
        ((cmpOptionNullsLast compare a.intrRate b.intrRate).then
          (cmpOptionNullsLast compare a.intrRate2 b.intrRate2))))

def insertSorted {α : Type} (le : α → α → Bool) (x : α) : List α → List α
  | [] => [x]
  | y :: ys => if le x y then x :: y :: ys else y :: insertSorted le x ys

def sortByLe {α : Type} (le : α → α → Bool) (xs : List α) : List α :=
  xs.foldr (insertSorted le) []

/-- The `string_agg(format(...), ';' ORDER BY ...)` aggregate over a
product's live option set; `digest(..., 'sha256')` is abstracted by the
aggregated string itself (an injective stand-in for the digest). -/
def optionsAgg (opts : List OptionRow) : String :=
  String.intercalate ";"
    ((sortByLe (fun a b => !(cmpOptionRow a b == Ordering.gt)) opts).map optAggPart)

/-- Write the recomputed aggregates and the bookkeeping timestamp onto a
product row. -/
def setAgg (h : Option String) (c : Option Nat) (u : Nat) (p : ProductRow) :
    ProductRow :=
  { p with optionsSetHash := h, optionsCount := c, updatedAt := u }

/-- The per-row effect of `RECOMPUTE_OPTION_SET_HASH_SQL` on one current
product of the partition. -/
def recomputeRow (pt : String) (now : Nat) (opts : List OptionRow)
    (p : ProductRow) : ProductRow :=
  if p.isCurrent && p.productType == pt then
    if (currentOptsOf opts p.id).isEmpty then
      setAgg none (some 0) now p
    else
      setAgg (some (optionsAgg (currentOptsOf opts p.id)))
        (some (currentOptsOf opts p.id).length) now p
  else p

def recomputeStep (pt : String) (now : Nat) (s : FinState) : FinState :=
  { s with products := s.products.map (recomputeRow pt now s.options) }

/-- `upsert_for_type` (CORE-table effect): BASE close / insert / touch, the
OPTION upsert statement, then the aggregate recompute, inside one
transaction, whose `now()` is the single transaction timestamp.
`analyze_changed_products` runs afterwards but only writes
`core.product_special_condition` (modeled separately as
`analyze_changed_products`), never `core.product` or
`core.product_option`. -/
def upsert_for_type (landingB : List BaseLanding) (landingO : List OptionLanding)
    (pt : String) (now : Nat) (s : FinState) : FinState :=
  recomputeStep pt now
    (optionUpsertStep landingO pt now
      (baseTouchStep landingB pt now
        (baseInsertStep landingB pt now
          (baseCloseStep landingB pt now s))))

def ProductRow.eraseUpd (p : ProductRow) : ProductRow := { p with updatedAt := 0 }

def OptionRow.eraseUpd (po : OptionRow) : OptionRow := { po with updatedAt := 0 }

/-- Two CORE states are compared up to the bookkeeping `updated_at` column
by zeroing it everywhere. -/
def FinState.eraseUpd (s : FinState) : FinState :=
  { products := s.products.map ProductRow.eraseUpd,
    options := s.options.map OptionRow.eraseUpd,
    nextPid := s.nextPid, nextOid := s.nextOid }

/-- After a base phase: every key that has a candidate has at least one
current row, and all its current rows carry the candidate's hash. -/
def baseStable (landing : List BaseLanding) (pt : String)
    (ps : List ProductRow) : Prop :=
  ∀ k c, candB landing pt k = some c →
    currentsWithKey ps k ≠ [] ∧
    ∀ p ∈ currentsWithKey ps k, p.contentHash = c.contentHash

/-- After an option phase: every `(product_id, option key)` group that has a
candidate has at least one current option row, and all its current rows
carry the candidate's hash. -/
def optStable (rs : List OptRaw) (opts : List OptionRow) : Prop :=
  ∀ pid ok oc, candO rs pid ok = some oc →
    currentOptsWithKey opts pid ok ≠ [] ∧
    ∀ po ∈ currentOptsWithKey opts pid ok, po.contentHash = oc.o.contentHash

/-- A product-row map that can change only `updated_at`. -/
def updOnlyP (f : ProductRow → ProductRow) : Prop :=
  ∀ p, (f p).eraseUpd = p.eraseUpd

/-- An option-row map that can change only `updated_at`. -/
def updOnlyO (f : OptionRow → OptionRow) : Prop :=
  ∀ po, (po |> f).eraseUpd = po.eraseUpd

/-- A product-row map that preserves every column the reconciler's joins
and candidate logic read (it may change the derived aggregates and
`updated_at`). -/
def coreFieldsPres (f : ProductRow → ProductRow) : Prop :=
  ∀ p, (f p).isCurrent = p.isCurrent ∧ (f p).productType = p.productType ∧
    (f p).extSource = p.extSource ∧ (f p).extId = p.extId ∧
    (f p).contentHash = p.contentHash ∧ (f p).id = p.id ∧
    (f p).dclsMonth = p.dclsMonth


/-- The nine boolean flags of the `SpecialCondition` dataclass (all default
`False`). -/
structure SpecialCondition where
  is_non_face_to_face : Bool := false
  is_bank_app : Bool := false
  is_salary_linked : Bool := false
  is_pension_linked : Bool := false
  is_utility_linked : Bool := false
  is_card_usage : Bool := false
  is_first_transaction : Bool := false
  is_checking_account : Bool := false
  is_redeposit : Bool := false
deriving Repr, DecidableEq

/-- One row of `core.product_special_condition` (keyed by `product_id`,
`uq_product_special_condition`). -/
structure SpecialRow where
  productId : Nat
  cond : SpecialCondition
deriving Repr, DecidableEq

/-- The projection of `core.product` that `analyze_changed_products`'s query
reads: `id`, `is_current`, `spcl_cnd` (the generated column
`payload->>'spcl_cnd'`). -/
structure ProductSpcl where
  id : Nat
  isCurrent : Bool
  spclCnd : Option String
deriving Repr, DecidableEq

/-- Python `str` whitespace (the characters `str.strip()` removes). -/
def isWS (c : Char) : Bool :=
  c == ' ' || c == '\t' || c == '\n' || c == '\r' || c == '\x0b' || c == '\x0c'

/-- Python `str.strip()`. -/
def pyStrip (s : String) : String :=
  ⟨((s.data.dropWhile isWS).reverse.dropWhile isWS).reverse⟩

/-- `analyze_special_condition`, with the Gemini model call abstracted as
an oracle `api` (a `none` result models an API exception or an unparsable
response, the `except` path).  `geminiAvailable` models
`GEMINI_AVAILABLE and GEMINI_API_KEY` being usable.  The second component
counts external model calls.  Note the only short-circuit is the
blank/whitespace check `not spcl_cnd or spcl_cnd.strip() == ""`. -/
def analyze_special_condition (geminiAvailable : Bool)
    (api : String → Option SpecialCondition) (spclCnd : String) :
    Option SpecialCondition × Nat :=
  if !geminiAvailable then (none, 0)
  else if spclCnd = "" || pyStrip spclCnd = "" then (some {}, 0)
  else
    match api spclCnd with
    | some c => (some c, 1)
    | none => (none, 1)

/-- `save_special_condition`: `INSERT ... ON CONFLICT (product_id) DO
UPDATE` — replace-on-conflict keyed by product id. -/
def save_special_condition (tbl : List SpecialRow) (pid : Nat)
    (c : SpecialCondition) : List SpecialRow :=
  if tbl.any (fun r => r.productId == pid) then
    tbl.map (fun r => if r.productId == pid then ⟨pid, c⟩ else r)
  else tbl ++ [⟨pid, c⟩]

/-- `analyze_changed_products`: select the changed, current products with a
non-empty `spcl_cnd`; classify each; persist a success with
`save_special_condition`; a `None` result only increments the failure
counter (nothing is persisted for that product).  Returns
`(success_count, failure_count, table)`. -/
def analyze_changed_products (geminiAvailable : Bool)
    (api : String → Option SpecialCondition) (skipGemini : Bool)
    (changedIds : List Nat) (products : List ProductSpcl)
    (tbl : List SpecialRow) : Nat × Nat × List SpecialRow :=
  if skipGemini || changedIds.isEmpty then (0, 0, tbl)
  else
    (products.filter (fun p => changedIds.contains p.id && p.isCurrent &&
        p.spclCnd.isSome && !(p.spclCnd.getD "" == ""))).foldl
      (fun acc p =>
        match (analyze_special_condition geminiAvailable api (p.spclCnd.getD "")).1 with
        | some c => (acc.1 + 1, acc.2.1, save_special_condition acc.2.2 p.id c)
        | none => (acc.1, acc.2.1 + 1, acc.2.2))
      (0, 0, tbl)

/-- The column quadruple of a CORE product row that history immutability is
about: `(id, content_hash, payload, valid_from_ts)`. -/
def contentViewP (p : ProductRow) : Nat × String × String × Nat :=
  (p.id, p.contentHash, p.payload, p.validFromTs)

/-- The column quintuple of a CORE option row that history immutability is
about. -/
def contentViewO (po : OptionRow) : Nat × Nat × String × String × Nat :=
  (po.id, po.productId, po.contentHash, po.payload, po.validFromTs)

/-- A leaf JSON object, as the association list of its scalar fields. -/
abbrev JItem := List (String × String)

/-- `orjson.dumps(item, OPT_SORT_KEYS)` followed by `sha256`: the
key-sorted serialization; the digest is abstracted by the canonical
serialization itself (an injective stand-in). -/
def canonicalSerialize (item : JItem) : String :=
  String.intercalate ","
    ((sortByLe (fun a b => !(strLtB b.1 a.1)) item).map (fun kv => kv.1 ++ ":" ++ kv.2))

/-- `payload["result"]` of a finlife RAW page (absent modeled as `none`). -/
structure FinResult where
  baseList : Option (List JItem)
deriving Repr, DecidableEq

structure FinPage where
  result : Option FinResult
deriving Repr, DecidableEq

/-- One record `extract_base_records` emits. -/
structure BaseRecord where
  finPrdtCd : String
  payload : JItem
  contentHash : String
deriving Repr, DecidableEq

/-- `extract_base_records` (02_stg_base.py): iterate `result.baseList`;
an item whose `fin_prdt_cd` is absent or empty (Python falsy) is skipped
and produces no landing record.  (Non-dict entries, also skipped by the
source, are outside the item type.) -/
def extract_base_records (page : FinPage) : List BaseRecord :=
  match page.result with
  | none => []
  | some r =>
    (r.baseList.getD []).filterMap (fun item =>
      match item.lookup "fin_prdt_cd" with
      | none => none
      | some cd =>
        if cd = "" then none
        else some ⟨cd, item, canonicalSerialize item⟩)

end FinCore

namespace PolicyCore

/-- One row of `core.policy` with the columns the modeled statements read;
the remaining scalar projections `upsert_policy` writes travel together in
`scalars` (they are always written as one block and never read
individually here). -/
structure PolicyRow where
  id : String
  extId : String
  extSource : Option String
  title : String
  payload : String
  contentHash : String
  scalars : String
  status : Option String
  applyType : Option String
  applyStart : Option Int
  applyEnd : Option Int
deriving Repr, DecidableEq

/-- `NormalizedPolicy` (04_stg_to_core.py), restricted to the fields the
modeled statements read; the other projections travel in `scalars`. -/
structure NormalizedPolicy where
  id : String
  extId : String
  extSource : Option String
  title : String
  payload : String
  contentHash : String
  scalars : String
  applyType : Option String
  applyStart : Option Int
  applyEnd : Option Int
  keywords : List String
  regions : List String
deriving Repr, DecidableEq

/-- The `ON CONFLICT (id) DO UPDATE SET` of `upsert_policy`: every content
column of the conflicting row is overwritten in place (`status` and
`created_at` are not in the column list). -/
def applyItem (it : NormalizedPolicy) (r : PolicyRow) : PolicyRow :=
  { r with
    extId := it.extId, extSource := it.extSource, title := it.title,
    payload := it.payload, contentHash := it.contentHash,
    scalars := it.scalars, applyType := it.applyType,
    applyStart := it.applyStart, applyEnd := it.applyEnd }

/-- The row the `INSERT` arm creates (`status` stays at its column
default). -/
def mkPolicyRow (it : NormalizedPolicy) : PolicyRow :=
  ⟨it.id, it.extId, it.extSource, it.title, it.payload, it.contentHash,
    it.scalars, none, it.applyType, it.applyStart, it.applyEnd⟩

def upsertOne (rows : List PolicyRow) (it : NormalizedPolicy) : List PolicyRow :=
  if rows.any (fun r => r.id == it.id) then
    rows.map (fun r => if r.id == it.id then applyItem it r else r)
  else rows ++ [mkPolicyRow it]

/-- `upsert_policy`: the batched `INSERT ... ON CONFLICT (id) DO UPDATE`
over the item list. -/
def upsert_policy (rows : List PolicyRow) (items : List NormalizedPolicy) :
    List PolicyRow :=
  items.foldl upsertOne rows

/-- The `CASE` expression of `update_policy_status`
(05_update_policy_status.py); SQL comparisons against `NULL` never match,
so a `NULL` `apply_type` or a missing bound falls to the final `ELSE`. -/
def statusCase (applyType : Option String) (applyStart applyEnd : Option Int)
    (today : Int) : String :=
  if applyType == some "ALWAYS_OPEN" then "OPEN"
  else if applyType == some "CLOSED" then "CLOSED"
  else
    match applyType, applyStart, applyEnd with
    | some "PERIODIC", some s, some e =>
      if s ≤ today ∧ today ≤ e then "OPEN"
      else if today < s then "UPCOMING"
      else if e < today then "CLOSED"
      else "UNKNOWN"
    | _, _, _ => "UNKNOWN"

/-- The claim's status function, written from its words: OPEN for
ALWAYS_OPEN; CLOSED for CLOSED; for PERIODIC with both bounds, OPEN inside
the window, UPCOMING before it, CLOSED after it; UNKNOWN in every other
case. -/
def claimedStatus (applyType : Option String) (applyStart applyEnd : Option Int)
    (today : Int) : String :=
  match applyType with
  | some a =>
    if a = "ALWAYS_OPEN" then "OPEN"
    else if a = "CLOSED" then "CLOSED"
    else if a = "PERIODIC" then
      match applyStart, applyEnd with
      | some s, some e =>
        if s ≤ today ∧ today ≤ e then "OPEN"
        else if today < s then "UPCOMING"
        else "CLOSED"
      | _, _ => "UNKNOWN"
    else "UNKNOWN"
  | none => "UNKNOWN"

/-- `update_policy_status`: the unconditional bulk `UPDATE core.policy SET
status = CASE ... END` at date `today`. -/
def update_policy_status (today : Int) (rows : List PolicyRow) :
    List PolicyRow :=
  rows.map (fun r =>
    { r with status := some (statusCase r.applyType r.applyStart r.applyEnd today) })

/-- The temp table `tmp_policy`: the touched policy ids. -/
def tmpPolicyIds (items : List NormalizedPolicy) : List String :=
  items.map (fun it => it.id)

/-- The target pairs loaded into `tmp_policy_keyword`: each item's keywords
resolved through the `master.keyword` name→id map (`keyword_map.get(k)`);
an unresolved or Python-falsy id is omitted. -/
def keywordTargetPairs (kmap : List (String × Nat))
    (items : List NormalizedPolicy) : List (String × Nat) :=
  items.flatMap (fun it => it.keywords.filterMap (fun k =>
    match kmap.lookup k with
    | some kid => if kid ≠ 0 then some (it.id, kid) else none
    | none => none))

/-- `sync_policy_keywords`: the `INSERT ... LEFT JOIN ... WHERE pe.policy_id
IS NULL` (pairs of the target absent from the table) followed by the
`DELETE ... USING tmp_policy ... NOT EXISTS` (existing pairs of touched
policies absent from the target), returning
`(inserted count, deleted count, final table)`. -/
def sync_policy_keywords (kmap : List (String × Nat))
    (existing : List (String × Nat)) (items : List NormalizedPolicy) :
    Nat × Nat × List (String × Nat) :=
  if items.isEmpty then (0, 0, existing)
  else
    let pids := tmpPolicyIds items
    let target := keywordTargetPairs kmap items
    let inserted := target.filter (fun t => !(existing.contains t))
    let afterIns := existing ++ inserted
    let deleted := afterIns.filter (fun e => pids.contains e.1 && !(target.contains e))
    (inserted.length, deleted.length,
      afterIns.filter (fun e => !(pids.contains e.1 && !(target.contains e))))

/-- The target pairs loaded into `tmp_policy_region`: each item's zip codes
resolved through the `master.region` zip→id map. -/
def regionTargetPairs (rmap : List (String × Nat))
    (items : List NormalizedPolicy) : List (String × Nat) :=
  items.flatMap (fun it => it.regions.filterMap (fun z =>
    match rmap.lookup z with
    | some rid => if rid ≠ 0 then some (it.id, rid) else none
    | none => none))

/-- `sync_policy_region`: same set-difference shape as the keyword sync
(the batching and progress bars carry no semantics). -/
def sync_policy_region (rmap : List (String × Nat))
    (existing : List (String × Nat)) (items : List NormalizedPolicy) :
    Nat × Nat × List (String × Nat) :=
  if items.isEmpty then (0, 0, existing)
  else
    let pids := tmpPolicyIds items
    let target := regionTargetPairs rmap items
    let inserted := target.filter (fun t => !(existing.contains t))
    let afterIns := existing ++ inserted
    let deleted := afterIns.filter (fun e => pids.contains e.1 && !(target.contains e))
    (inserted.length, deleted.length,
      afterIns.filter (fun e => !(pids.contains e.1 && !(target.contains e))))

/-- `DROP_FIELDS` of 02_stg_landing.py: `PAGE_META ∪ POLICY_NOISE` (only
`inqCnt` is active in `POLICY_NOISE`; the rest is commented out). -/
def DROP_FIELDS : List String :=
  ["totCount", "pageNo", "pageNum", "pageIndex", "pageSize", "nowTs",
   "requestId", "timestamp", "inqCnt"]

/-- `canonical_bytes`: prune `DROP_FIELDS`, then key-sorted
serialization. -/
def canonical_bytes (item : FinCore.JItem) : String :=
  FinCore.canonicalSerialize (item.filter (fun kv => !(DROP_FIELDS.contains kv.1)))

/-- `record_hash` — `sha256` abstracted by the canonical serialization. -/
def record_hash (item : FinCore.JItem) : String := canonical_bytes item

/-- `pick_policy_id`: `str(item.get("plcyNo"))`.  A missing `plcyNo` gives
Python `str(None)`, the literal string `"None"`; the surrogate-key branch
of the source is commented out, so nothing is dropped or substituted. -/
def pick_policy_id (item : FinCore.JItem) : String :=
  match item.lookup "plcyNo" with
  | some v => v
  | none => "None"

/-- The landing rows `upsert_landing` prepares from one page's items: one
`(policy_id, record_hash)` row per item, unconditionally. -/
def prepareLandingRows (items : List FinCore.JItem) : List (String × String) :=
  items.map (fun it => (pick_policy_id it, record_hash it))

/-- A Python call's outcome: a value, or an uncaught `UnboundLocalError`. -/
inductive PyResult (α : Type) where
  | ok : α → PyResult α
  | unboundLocalError : PyResult α
deriving Repr, DecidableEq

/-- A parsed `datetime` (the KST tzinfo attached by the source carries no
content for these claims). -/
structure DateTime where
  year : Nat
  month : Nat
  day : Nat
  hour : Nat
  minute : Nat
  second : Nat
deriving Repr, DecidableEq

def digitVal (c : Char) : Option Nat :=
  if c.isDigit then some (c.toNat - 48) else none

/-- `datetime.strptime(s, "%Y-%m-%d %H:%M:%S")`, `ValueError` as `none`:
exactly 19 characters in the fixed shape, with basic range checks (the
calendar-exact day-of-month validation of Python's `datetime` is not
modeled; no claim depends on it). -/
def strptimeDT (s : String) : Option DateTime :=
  match s.data with
  | [y1, y2, y3, y4, '-', m1, m2, '-', d1, d2, ' ',
     h1, h2, ':', mi1, mi2, ':', s1, s2] =>
    match digitVal y1, digitVal y2, digitVal y3, digitVal y4, digitVal m1,
      digitVal m2, digitVal d1, digitVal d2, digitVal h1, digitVal h2,
      digitVal mi1, digitVal mi2, digitVal s1, digitVal s2 with
    | some a1, some a2, some a3, some a4, some b1, some b2, some c1, some c2,
      some e1, some e2, some f1, some f2, some g1, some g2 =>
      if 1 ≤ b1 * 10 + b2 ∧ b1 * 10 + b2 ≤ 12 ∧ 1 ≤ c1 * 10 + c2 ∧
          c1 * 10 + c2 ≤ 31 ∧ e1 * 10 + e2 ≤ 23 ∧ f1 * 10 + f2 ≤ 59 ∧
          g1 * 10 + g2 ≤ 61 then
        some ⟨a1 * 1000 + a2 * 100 + a3 * 10 + a4, b1 * 10 + b2, c1 * 10 + c2,
          e1 * 10 + e2, f1 * 10 + f2, g1 * 10 + g2⟩
      else none
    | _, _, _, _, _, _, _, _, _, _, _, _, _, _ => none
  | _ => none

/-- `parse_modified_datetime`: when `dt_str` is falsy (`None` or `""`) the
body's `if` is skipped, the local `last_external_modified` is never bound,
and the `return` raises `UnboundLocalError`; otherwise the `strptime`
result with `ValueError` caught to `None`. -/
def parse_modified_datetime (dtStr : Option String) :
    PyResult (Option DateTime) :=
  match dtStr with
  | none => PyResult.unboundLocalError
  | some s =>
    if s = "" then PyResult.unboundLocalError
    else PyResult.ok (strptimeDT s)

end PolicyCore

namespace FinCore

theorem pickBest_mem {α : Type} {better : α → α → Bool} :
    ∀ {xs : List α} {y : α}, pickBest better xs = some y → y ∈ xs := by
  intro xs
  induction xs with
  | nil => intro y h; simp [pickBest] at h
  | cons x xs ih =>
    intro y h
    simp only [pickBest] at h
    cases hx : pickBest better xs with
    | none => rw [hx] at h; simp at h; simp [h]
    | some z =>
      rw [hx] at h
      by_cases hb : better z x
      · simp [hb] at h
        exact List.mem_cons_of_mem x (h ▸ ih hx)
      · simp [hb] at h
        simp [h]

theorem pickBest_ne_none {α : Type} {better : α → α → Bool} {x : α}
    {xs : List α} (h : x ∈ xs) : pickBest better xs ≠ none := by
  induction xs with
  | nil => simp at h
  | cons a as ih =>
    simp only [pickBest]
    cases hx : pickBest better as with
    | none => simp
    | some z => by_cases hb : better z a <;> simp [hb]

theorem baseCloseRow_current_fix (landing : List BaseLanding) (pt : String)
    (now : Nat) (p : ProductRow)
    (h : (baseCloseRow landing pt now p).isCurrent = true) :
    baseCloseRow landing pt now p = p := by
  by_cases hc : p.isCurrent
  · cases hcand : candB landing pt p.key with
    | none => simp [baseCloseRow, hc, hcand]
    | some c =>
      by_cases hh : p.contentHash = c.contentHash
      · simp [baseCloseRow, hc, hcand, hh]
      · exfalso
        simp [baseCloseRow, hc, hcand, hh, closeProduct] at h
  · simp [baseCloseRow, hc]

theorem length_filter_map_le_of_fix {α : Type} (f : α → α) (q : α → Bool)
    (h : ∀ a, q (f a) = true → f a = a) (l : List α) :
    ((l.map f).filter q).length ≤ (l.filter q).length := by
  induction l with
  | nil => simp
  | cons x xs ih =>
    simp only [List.map_cons, List.filter_cons]
    by_cases hq : q (f x) = true
    · have hfx := h x hq
      rw [hfx] at hq ⊢
      simp only [hq, if_true, List.length_cons]
      exact Nat.succ_le_succ ih
    · simp only [Bool.not_eq_true] at hq
      rw [hq]
      simp only [Bool.false_eq_true, if_false]
      by_cases hx : q x = true
      · simp only [hx, if_true, List.length_cons]
        exact Nat.le_succ_of_le ih
      · simp only [Bool.not_eq_true] at hx
        rw [hx]
        simp only [Bool.false_eq_true, if_false]
        exact ih

theorem length_filter_map_eq {α : Type} (f : α → α) (q : α → Bool)
    (h : ∀ a, q (f a) = q a) (l : List α) :
    ((l.map f).filter q).length = (l.filter q).length := by
  induction l with
  | nil => simp
  | cons x xs ih =>
    simp only [List.map_cons, List.filter_cons, h x]
    by_cases hx : q x = true
    · simp only [hx, if_true, List.length_cons, ih]
    · simp only [Bool.not_eq_true] at hx
      rw [hx]
      simp only [Bool.false_eq_true, if_false, ih]

theorem countCurrent_close_le (landing : List BaseLanding) (pt : String)
    (now : Nat) (ps : List ProductRow) (k : NatKey) :
    countCurrent (ps.map (baseCloseRow landing pt now)) k ≤ countCurrent ps k := by
  unfold countCurrent currentsWithKey
  apply length_filter_map_le_of_fix
  intro p hq
  rw [Bool.and_eq_true] at hq
  exact baseCloseRow_current_fix landing pt now p hq.1

theorem close_purifies (landing : List BaseLanding) (pt : String) (now : Nat)
    (ps : List ProductRow) (k : NatKey) (c : BaseLanding)
    (hc : candB landing pt k = some c) :
    ∀ p ∈ ps.map (baseCloseRow landing pt now),
      p.isCurrent = true → p.key = k → p.contentHash = c.contentHash := by
  intro p hp hcur hkey
  obtain ⟨q, hq, rfl⟩ := List.mem_map.mp hp
  have hfix := baseCloseRow_current_fix landing pt now q hcur
  rw [hfix] at hcur hkey ⊢
  by_contra hne
  have hclose : baseCloseRow landing pt now q = closeProduct now q := by
    simp only [baseCloseRow, hcur, if_true, hkey, hc]
    simp [hne]
  rw [hfix] at hclose
  have : q.isCurrent = (closeProduct now q).isCurrent := congrArg ProductRow.isCurrent hclose
  rw [hcur] at this
  simp [closeProduct] at this

theorem mkProductRow_key (i : Nat) (c : BaseLanding) (now : Nat) :
    (mkProductRow i c now).key = c.key := rfl

theorem mkProductRow_isCurrent (i : Nat) (c : BaseLanding) (now : Nat) :
    (mkProductRow i c now).isCurrent = true := rfl

theorem countCurrent_append (a b : List ProductRow) (k : NatKey) :
    countCurrent (a ++ b) k = countCurrent a k + countCurrent b k := by
  simp [countCurrent, currentsWithKey, List.filter_append]

theorem countCurrent_assignIds (toIns : List BaseLanding) (base now : Nat)
    (k : NatKey) :
    countCurrent (assignIds base now toIns) k
      = (toIns.filter (fun c => c.key == k)).length := by
  induction toIns generalizing base with
  | nil => simp [assignIds, countCurrent, currentsWithKey]
  | cons c cs ih =>
    simp only [assignIds]
    unfold countCurrent currentsWithKey
    simp only [List.filter_cons, mkProductRow_isCurrent, mkProductRow_key,
      Bool.true_and]
    by_cases hk : (c.key == k) = true
    · rw [hk]
      simp only [if_true, List.length_cons]
      have := ih (base + 1)
      unfold countCurrent currentsWithKey at this
      rw [this]
    · rw [Bool.not_eq_true] at hk
      rw [hk]
      simp only [Bool.false_eq_true, if_false]
      have := ih (base + 1)
      unfold countCurrent currentsWithKey at this
      rw [this]

theorem baseInsertFor_key (landing : List BaseLanding) (pt : String)
    (ps : List ProductRow) (k : NatKey) :
    ∀ x ∈ baseInsertFor landing pt ps k, x.key = k := by
  intro x hx
  unfold baseInsertFor at hx
  cases hcand : candB landing pt k with
  | none => rw [hcand] at hx; simp at hx
  | some c =>
    rw [hcand] at hx
    have hck : c.key = k := by
      have hmem := pickBest_mem hcand
      have hcond := List.of_mem_filter hmem
      rw [Bool.and_eq_true] at hcond
      exact eq_of_beq hcond.2
    simp only at hx
    by_cases he : (currentsWithKey ps k).isEmpty
    · rw [if_pos he] at hx
      simp at hx
      rw [hx]
      exact hck
    · rw [if_neg he] at hx
      rw [List.mem_map] at hx
      obtain ⟨_, _, rfl⟩ := hx
      exact hck

theorem filter_key_flatMap_le (keys : List NatKey)
    (g : NatKey → List BaseLanding) (k : NatKey)
    (hg : ∀ k' ∈ keys, ∀ x ∈ g k', x.key = k') (hnd : keys.Nodup) :
    ((keys.flatMap g).filter (fun c => c.key == k)).length ≤ (g k).length := by
  induction keys with
  | nil => simp
  | cons k' ks ih =>
    rw [List.flatMap_cons, List.filter_append, List.length_append]
    rcases List.nodup_cons.mp hnd with ⟨hk', hnd'⟩
    have hg' : ∀ k'' ∈ ks, ∀ x ∈ g k'', x.key = k'' := by
      intro k'' hk'' x hxg
      exact hg k'' (List.mem_cons_of_mem _ hk'') x hxg
    by_cases he : k' = k
    · subst he
      have h2 : ((ks.flatMap g).filter (fun c => c.key == k')).length = 0 := by
        rw [List.length_eq_zero, List.filter_eq_nil_iff]
        intro x hx
        obtain ⟨k'', hk'', hxg⟩ := List.mem_flatMap.mp hx
        have hxk := hg' k'' hk'' x hxg
        simp [hxk]
        intro heq
        exact hk' (heq ▸ hk'')
      rw [h2]
      have := List.length_filter_le (fun c => c.key == k') (g k')
      omega
    · have h1 : ((g k').filter (fun c => c.key == k)).length = 0 := by
        rw [List.length_eq_zero, List.filter_eq_nil_iff]
        intro x hxg
        have hxk := hg k' (List.mem_cons_self _ _) x hxg
        simp [hxk]
        exact he
      rw [h1]
      have := ih hg' hnd'
      omega

theorem baseTouchRow_isCurrent (landing : List BaseLanding) (pt : String)
    (now : Nat) (p : ProductRow) :
    (baseTouchRow landing pt now p).isCurrent = p.isCurrent := by
  unfold baseTouchRow
  by_cases hc : p.isCurrent
  · cases hcand : candB landing pt p.key with
    | none => simp [hc, hcand]
    | some c =>
      by_cases hh : (p.contentHash == c.contentHash) = true
      · simp [hc, hcand, hh]
      · rw [Bool.not_eq_true] at hh
        simp [hc, hcand, hh]
  · simp [hc]

theorem baseTouchRow_key (landing : List BaseLanding) (pt : String)
    (now : Nat) (p : ProductRow) :
    (baseTouchRow landing pt now p).key = p.key := by
  unfold baseTouchRow
  by_cases hc : p.isCurrent
  · cases hcand : candB landing pt p.key with
    | none => simp [hc, hcand]
    | some c =>
      by_cases hh : (p.contentHash == c.contentHash) = true
      · simp [hc, hcand, hh, ProductRow.key]
      · rw [Bool.not_eq_true] at hh
        simp [hc, hcand, hh]
  · simp [hc]

theorem countCurrent_touch_eq (landing : List BaseLanding) (pt : String)
    (now : Nat) (ps : List ProductRow) (k : NatKey) :
    countCurrent (ps.map (baseTouchRow landing pt now)) k = countCurrent ps k := by
  unfold countCurrent currentsWithKey
  apply length_filter_map_eq
  intro p
  rw [baseTouchRow_isCurrent, baseTouchRow_key]

/-- Claim C1: through the reconciler's close → insert → touch sequence for
one partition (`BASE_CLOSE_SQL`, `BASE_INSERT_SQL`, `BASE_TOUCH_SQL`), the
single-current invariant of `core.product` is maintained at every
intermediate point: if the table starts with at most one
`is_current = TRUE` row per natural key, then after the close step, after
the insert step and after the touch step there is still at most one — the
close step flips `is_current` off for every current row whose
`content_hash` differs from its rank-1 candidate before the insert step
opens a new current row for exactly the keys with no remaining current
row. -/
theorem C1_single_current_invariant (landing : List BaseLanding) (pt : String)
    (now₁ now₂ now₃ : Nat) (s : FinState) (h : singleCurrent s.products) :
    singleCurrent (baseCloseStep landing pt now₁ s).products ∧
    singleCurrent
      (baseInsertStep landing pt now₂ (baseCloseStep landing pt now₁ s)).products ∧
    singleCurrent
      (baseTouchStep landing pt now₃
        (baseInsertStep landing pt now₂ (baseCloseStep landing pt now₁ s))).products := by
  have hclose : singleCurrent (baseCloseStep landing pt now₁ s).products := by
    intro k
    exact le_trans (countCurrent_close_le landing pt now₁ s.products k) (h k)
  have hinsert : singleCurrent
      (baseInsertStep landing pt now₂ (baseCloseStep landing pt now₁ s)).products := by
    intro k
    show countCurrent
      ((baseCloseStep landing pt now₁ s).products ++
        assignIds (baseCloseStep landing pt now₁ s).nextPid now₂
          (baseNeedInsert landing pt (baseCloseStep landing pt now₁ s).products)) k ≤ 1
    rw [countCurrent_append, countCurrent_assignIds]
    have hkeys : ∀ k' ∈ candKeys landing pt,
        ∀ x ∈ baseInsertFor landing pt (baseCloseStep landing pt now₁ s).products k',
          x.key = k' := by
      intro k' _
      exact baseInsertFor_key landing pt _ k'
    have hnd : (candKeys landing pt).Nodup := List.nodup_dedup _
    have hb := filter_key_flatMap_le (candKeys landing pt)
      (baseInsertFor landing pt (baseCloseStep landing pt now₁ s).products) k hkeys hnd
    have hbound :
        (baseInsertFor landing pt (baseCloseStep landing pt now₁ s).products k).length
          + countCurrent (baseCloseStep landing pt now₁ s).products k ≤ 1 := by
      cases hcand : candB landing pt k with
      | none =>
        simp only [baseInsertFor, hcand, List.length_nil, Nat.zero_add]
        exact hclose k
      | some c =>
        simp only [baseInsertFor, hcand]
        by_cases hemp :
            (currentsWithKey (baseCloseStep landing pt now₁ s).products k).isEmpty
        · rw [if_pos hemp]
          have hzero : countCurrent (baseCloseStep landing pt now₁ s).products k = 0 := by
            unfold countCurrent
            rw [List.isEmpty_iff] at hemp
            rw [hemp]
            rfl
          rw [hzero]
          simp
        · rw [if_neg hemp]
          have hfil :
              (currentsWithKey (baseCloseStep landing pt now₁ s).products k).filter
                (fun p => p.contentHash != c.contentHash) = [] := by
            rw [List.filter_eq_nil_iff]
            intro p hp
            rcases List.mem_filter.mp hp with ⟨hpmem, hpcond⟩
            rw [Bool.and_eq_true] at hpcond
            have hpk : p.key = k := eq_of_beq hpcond.2
            have := close_purifies landing pt now₁ s.products k c hcand p hpmem hpcond.1 hpk
            simp [this]
          rw [hfil]
          simp only [List.map_nil, List.length_nil, Nat.zero_add]
          exact hclose k
    calc countCurrent (baseCloseStep landing pt now₁ s).products k +
          ((baseNeedInsert landing pt (baseCloseStep landing pt now₁ s).products).filter
            (fun c => c.key == k)).length
        ≤ countCurrent (baseCloseStep landing pt now₁ s).products k +
          (baseInsertFor landing pt (baseCloseStep landing pt now₁ s).products k).length := by
          exact Nat.add_le_add_left hb _
      _ ≤ 1 := by omega
  refine ⟨hclose, hinsert, ?_⟩
  intro k
  show countCurrent
    ((baseInsertStep landing pt now₂ (baseCloseStep landing pt now₁ s)).products.map
      (baseTouchRow landing pt now₃)) k ≤ 1
  rw [countCurrent_touch_eq]
  exact hinsert k

/-- Witness for C1: a one-product state whose landing row carries a changed
hash, run through close/insert/touch at concrete timestamps. -/
theorem C1_single_current_invariant_witness :
    singleCurrent (baseCloseStep
      [⟨"DEPOSIT", "finlife_deposit", "P1", "pay1", "h1", 1, some "202501"⟩]
      "DEPOSIT" 10
      ⟨[⟨1, "DEPOSIT", "finlife_deposit", "P1", "pay0", "h0", some "202412",
          true, 0, none, none, none, 0⟩], [], 2, 1⟩).products ∧
    singleCurrent (baseInsertStep
      [⟨"DEPOSIT", "finlife_deposit", "P1", "pay1", "h1", 1, some "202501"⟩]
      "DEPOSIT" 11 (baseCloseStep
      [⟨"DEPOSIT", "finlife_deposit", "P1", "pay1", "h1", 1, some "202501"⟩]
      "DEPOSIT" 10
      ⟨[⟨1, "DEPOSIT", "finlife_deposit", "P1", "pay0", "h0", some "202412",
          true, 0, none, none, none, 0⟩], [], 2, 1⟩)).products ∧
    singleCurrent (baseTouchStep
      [⟨"DEPOSIT", "finlife_deposit", "P1", "pay1", "h1", 1, some "202501"⟩]
      "DEPOSIT" 12 (baseInsertStep
      [⟨"DEPOSIT", "finlife_deposit", "P1", "pay1", "h1", 1, some "202501"⟩]
      "DEPOSIT" 11 (baseCloseStep
      [⟨"DEPOSIT", "finlife_deposit", "P1", "pay1", "h1", 1, some "202501"⟩]
      "DEPOSIT" 10
      ⟨[⟨1, "DEPOSIT", "finlife_deposit", "P1", "pay0", "h0", some "202412",
          true, 0, none, none, none, 0⟩], [], 2, 1⟩))).products :=
  C1_single_current_invariant
    [⟨"DEPOSIT", "finlife_deposit", "P1", "pay1", "h1", 1, some "202501"⟩]
    "DEPOSIT" 10 11 12
    ⟨[⟨1, "DEPOSIT", "finlife_deposit", "P1", "pay0", "h0", some "202412",
        true, 0, none, none, none, 0⟩], [], 2, 1⟩
    (fun k => List.length_filter_le _ _)

theorem map_id_of_mem {α : Type} (f : α → α) (l : List α)
    (h : ∀ a ∈ l, f a = a) : l.map f = l := by
  induction l with
  | nil => rfl
  | cons x xs ih =>
    rw [List.map_cons, h x (List.mem_cons_self x xs),
      ih (fun a ha => h a (List.mem_cons_of_mem x ha))]

theorem filter_map_comm {α : Type} (f : α → α) (q : α → Bool)
    (h : ∀ a, q (f a) = q a) (l : List α) :
    (l.map f).filter q = (l.filter q).map f := by
  induction l with
  | nil => rfl
  | cons x xs ih =>
    simp only [List.map_cons, List.filter_cons, h x]
    by_cases hx : q x = true
    · rw [hx]
      simp only [if_true, List.map_cons, ih]
    · rw [Bool.not_eq_true] at hx
      rw [hx]
      simp only [Bool.false_eq_true, if_false, ih]

theorem coreFieldsPres_key {f : ProductRow → ProductRow}
    (hf : coreFieldsPres f) (p : ProductRow) : (f p).key = p.key := by
  rcases hf p with ⟨_, h2, h3, h4, _, _, _⟩
  simp [ProductRow.key, h2, h3, h4]

theorem currentsWithKey_map {f : ProductRow → ProductRow}
    (hf : coreFieldsPres f) (ps : List ProductRow) (k : NatKey) :
    currentsWithKey (ps.map f) k = (currentsWithKey ps k).map f := by
  apply filter_map_comm
  intro p
  rcases hf p with ⟨h1, _, _, _, _, _, _⟩
  rw [h1, coreFieldsPres_key hf p]

theorem baseStable_map {landing : List BaseLanding} {pt : String}
    {f : ProductRow → ProductRow} {ps : List ProductRow}
    (hf : coreFieldsPres f) (hst : baseStable landing pt ps) :
    baseStable landing pt (ps.map f) := by
  intro k c hc
  rcases hst k c hc with ⟨hne, hhash⟩
  rw [currentsWithKey_map hf]
  constructor
  · intro hmap
    exact hne (List.map_eq_nil_iff.mp hmap)
  · intro p hp
    obtain ⟨q, hq, rfl⟩ := List.mem_map.mp hp
    rcases hf q with ⟨_, _, _, _, h5, _, _⟩
    rw [h5]
    exact hhash q hq

theorem updOnlyP_coreFields {f : ProductRow → ProductRow}
    (hf : updOnlyP f) : coreFieldsPres f := by
  intro p
  have h := hf p
  have h1 : ((f p).eraseUpd).isCurrent = (p.eraseUpd).isCurrent :=
    congrArg ProductRow.isCurrent h
  have h2 : ((f p).eraseUpd).productType = (p.eraseUpd).productType :=
    congrArg ProductRow.productType h
  have h3 : ((f p).eraseUpd).extSource = (p.eraseUpd).extSource :=
    congrArg ProductRow.extSource h
  have h4 : ((f p).eraseUpd).extId = (p.eraseUpd).extId :=
    congrArg ProductRow.extId h
  have h5 : ((f p).eraseUpd).contentHash = (p.eraseUpd).contentHash :=
    congrArg ProductRow.contentHash h
  have h6 : ((f p).eraseUpd).id = (p.eraseUpd).id :=
    congrArg ProductRow.id h
  have h7 : ((f p).eraseUpd).dclsMonth = (p.eraseUpd).dclsMonth :=
    congrArg ProductRow.dclsMonth h
  exact ⟨h1, h2, h3, h4, h5, h6, h7⟩

theorem baseCloseRow_id_of_stable {landing : List BaseLanding} {pt : String}
    {ps : List ProductRow} (hst : baseStable landing pt ps) (now : Nat)
    (p : ProductRow) (hp : p ∈ ps) : baseCloseRow landing pt now p = p := by
  by_cases hc : p.isCurrent
  · cases hcand : candB landing pt p.key with
    | none => simp [baseCloseRow, hc, hcand]
    | some c =>
      have hmem : p ∈ currentsWithKey ps p.key := by
        rw [currentsWithKey, List.mem_filter]
        exact ⟨hp, by simp [hc]⟩
      have hh := (hst p.key c hcand).2 p hmem
      simp [baseCloseRow, hc, hcand, hh]
  · simp [baseCloseRow, hc]

theorem baseCloseStep_id_of_stable {landing : List BaseLanding} {pt : String}
    (now : Nat) (s : FinState) (hst : baseStable landing pt s.products) :
    baseCloseStep landing pt now s = s := by
  unfold baseCloseStep
  rw [map_id_of_mem _ _ (fun p hp => baseCloseRow_id_of_stable hst now p hp)]

theorem candB_isSome_of_mem {landing : List BaseLanding} {pt : String}
    {k : NatKey} (hk : k ∈ candKeys landing pt) :
    ∃ c, candB landing pt k = some c := by
  unfold candKeys at hk
  rw [List.mem_dedup] at hk
  obtain ⟨b, hb, rfl⟩ := List.mem_map.mp hk
  rcases List.mem_filter.mp hb with ⟨hbl, hbt⟩
  have hmem : b ∈ baseRowsFor landing pt b.key := by
    rw [baseRowsFor, List.mem_filter]
    refine ⟨hbl, ?_⟩
    rw [Bool.and_eq_true]
    exact ⟨hbt, by simp⟩
  cases hcb : candB landing pt b.key with
  | none => exact absurd hcb (pickBest_ne_none hmem)
  | some c => exact ⟨c, rfl⟩

theorem mem_candKeys_of_candB {landing : List BaseLanding} {pt : String}
    {k : NatKey} {c : BaseLanding} (hc : candB landing pt k = some c) :
    k ∈ candKeys landing pt := by
  have hmem := pickBest_mem hc
  rcases List.mem_filter.mp hmem with ⟨hcl, hcond⟩
  rw [Bool.and_eq_true] at hcond
  have hk : c.key = k := eq_of_beq hcond.2
  unfold candKeys
  rw [List.mem_dedup]
  exact List.mem_map.mpr ⟨c, List.mem_filter.mpr ⟨hcl, hcond.1⟩, hk⟩

theorem baseNeedInsert_nil_of_stable {landing : List BaseLanding} {pt : String}
    {ps : List ProductRow} (hst : baseStable landing pt ps) :
    baseNeedInsert landing pt ps = [] := by
  unfold baseNeedInsert
  rw [List.flatMap_eq_nil_iff]
  intro k hk
  obtain ⟨c, hc⟩ := candB_isSome_of_mem hk
  rcases hst k c hc with ⟨hne, hhash⟩
  simp only [baseInsertFor, hc]
  rw [if_neg (by rw [List.isEmpty_iff]; exact hne)]
  have hfil : (currentsWithKey ps k).filter
      (fun p => p.contentHash != c.contentHash) = [] := by
    rw [List.filter_eq_nil_iff]
    intro p hp
    simp [hhash p hp]
  rw [hfil]
  rfl

theorem baseInsertStep_id_of_stable {landing : List BaseLanding} {pt : String}
    (now : Nat) (s : FinState) (hst : baseStable landing pt s.products) :
    baseInsertStep landing pt now s = s := by
  unfold baseInsertStep
  rw [baseNeedInsert_nil_of_stable hst]
  simp [assignIds]

theorem baseTouchRow_updOnly (landing : List BaseLanding) (pt : String)
    (now : Nat) : updOnlyP (baseTouchRow landing pt now) := by
  intro p
  by_cases hc : p.isCurrent
  · cases hcand : candB landing pt p.key with
    | none => simp [baseTouchRow, hc, hcand]
    | some c =>
      by_cases hh : (p.contentHash == c.contentHash) = true
      · simp [baseTouchRow, hc, hcand, hh, ProductRow.eraseUpd]
      · rw [Bool.not_eq_true] at hh
        simp [baseTouchRow, hc, hcand, hh]
  · simp [baseTouchRow, hc]

theorem mem_assignIds {x : ProductRow} {now : Nat} {cs : List BaseLanding} :
    ∀ {base : Nat}, x ∈ assignIds base now cs →
      ∃ i c, c ∈ cs ∧ x = mkProductRow i c now := by
  induction cs with
  | nil => intro base h; simp [assignIds] at h
  | cons c cs ih =>
    intro base h
    simp only [assignIds, List.mem_cons] at h
    cases h with
    | inl h => exact ⟨base, c, List.mem_cons_self c cs, h⟩
    | inr h =>
      obtain ⟨i, c', hc', rfl⟩ := ih h
      exact ⟨i, c', List.mem_cons_of_mem c hc', rfl⟩

theorem baseInsertFor_elem {landing : List BaseLanding} {pt : String}
    {ps : List ProductRow} {k' : NatKey} {x : BaseLanding}
    (hx : x ∈ baseInsertFor landing pt ps k') :
    candB landing pt k' = some x := by
  unfold baseInsertFor at hx
  cases hcand : candB landing pt k' with
  | none => rw [hcand] at hx; simp at hx
  | some c =>
    rw [hcand] at hx
    simp only at hx
    by_cases he : (currentsWithKey ps k').isEmpty
    · rw [if_pos he] at hx
      simp at hx
      rw [hx]
    · rw [if_neg he] at hx
      rw [List.mem_map] at hx
      obtain ⟨_, _, rfl⟩ := hx
      rfl

theorem baseStable_after_insert (landing : List BaseLanding) (pt : String)
    (now₁ now₂ : Nat) (s : FinState) :
    baseStable landing pt
      (baseInsertStep landing pt now₂ (baseCloseStep landing pt now₁ s)).products := by
  intro k c hcand
  have hsplit : currentsWithKey
      (baseInsertStep landing pt now₂ (baseCloseStep landing pt now₁ s)).products k
      = currentsWithKey (baseCloseStep landing pt now₁ s).products k ++
        currentsWithKey (assignIds (baseCloseStep landing pt now₁ s).nextPid now₂
          (baseNeedInsert landing pt (baseCloseStep landing pt now₁ s).products)) k := by
    show currentsWithKey ((baseCloseStep landing pt now₁ s).products ++ _) k = _
    rw [currentsWithKey, List.filter_append]
    rfl
  constructor
  · rw [hsplit]
    cases hcl : currentsWithKey (baseCloseStep landing pt now₁ s).products k with
    | cons p ps' => simp
    | nil =>
      rw [List.nil_append]
      have hempty : (currentsWithKey (baseCloseStep landing pt now₁ s).products k).isEmpty
          = true := by
        rw [hcl]
        rfl
      have hbranch : baseInsertFor landing pt
          (baseCloseStep landing pt now₁ s).products k = [c] := by
        simp only [baseInsertFor, hcand]
        rw [if_pos hempty]
      have hcmem : c ∈ baseNeedInsert landing pt
          (baseCloseStep landing pt now₁ s).products := by
        apply List.mem_flatMap.mpr
        refine ⟨k, mem_candKeys_of_candB hcand, ?_⟩
        rw [hbranch]
        exact List.mem_singleton.mpr rfl
      have hkey : c.key = k := by
        have hcond := List.of_mem_filter (pickBest_mem hcand)
        rw [Bool.and_eq_true] at hcond
        exact eq_of_beq hcond.2
      have hcount : 0 < countCurrent
          (assignIds (baseCloseStep landing pt now₁ s).nextPid now₂
            (baseNeedInsert landing pt (baseCloseStep landing pt now₁ s).products)) k := by
        rw [countCurrent_assignIds]
        exact List.length_pos_of_mem (List.mem_filter.mpr ⟨hcmem, by simp [hkey]⟩)
      intro hnil
      unfold countCurrent at hcount
      rw [hnil] at hcount
      simp at hcount
  · intro p hp
    rw [hsplit] at hp
    rcases List.mem_append.mp hp with hL | hR
    · rcases List.mem_filter.mp hL with ⟨hpmem, hpcond⟩
      rw [Bool.and_eq_true] at hpcond
      exact close_purifies landing pt now₁ s.products k c hcand p hpmem hpcond.1
        (eq_of_beq hpcond.2)
    · rcases List.mem_filter.mp hR with ⟨hpmem, hpcond⟩
      obtain ⟨i, c', hc', rfl⟩ := mem_assignIds hpmem
      rw [Bool.and_eq_true] at hpcond
      have hkeyp : c'.key = k := by
        have h := eq_of_beq hpcond.2
        rw [mkProductRow_key] at h
        exact h
      obtain ⟨k', hk', hc'in⟩ := List.mem_flatMap.mp hc'
      have hck' : candB landing pt k' = some c' := baseInsertFor_elem hc'in
      have hk'k : k' = k := by
        have h := baseInsertFor_key landing pt _ k' c' hc'in
        rw [← h, hkeyp]
      rw [hk'k, hcand] at hck'
      have hcc : c = c' := by
        injection hck'
      rw [← hcc]
      rfl

theorem baseStable_after_phase (landing : List BaseLanding) (pt : String)
    (now : Nat) (s : FinState) :
    baseStable landing pt
      (baseTouchStep landing pt now
        (baseInsertStep landing pt now (baseCloseStep landing pt now s))).products :=
  baseStable_map (updOnlyP_coreFields (baseTouchRow_updOnly landing pt now))
    (baseStable_after_insert landing pt now now s)

theorem mkOptionRow_productId (i : Nat) (oc : OptRaw) (now : Nat) :
    (mkOptionRow i oc now).productId = oc.productId := rfl

theorem mkOptionRow_okey (i : Nat) (oc : OptRaw) (now : Nat) :
    (mkOptionRow i oc now).okey = oc.okey := rfl

theorem mkOptionRow_isCurrent (i : Nat) (oc : OptRaw) (now : Nat) :
    (mkOptionRow i oc now).isCurrent = true := rfl

theorem candO_fields {rs : List OptRaw} {pid : Nat} {ok : OptKey} {oc : OptRaw}
    (hc : candO rs pid ok = some oc) : oc.productId = pid ∧ oc.okey = ok := by
  have hcond := List.of_mem_filter (pickBest_mem hc)
  rw [Bool.and_eq_true] at hcond
  exact ⟨eq_of_beq hcond.1, eq_of_beq hcond.2⟩

theorem candO_isSome_of_mem_pairs {rs : List OptRaw} {pid : Nat} {ok : OptKey}
    (hk : (pid, ok) ∈ optCandPairs rs) : ∃ oc, candO rs pid ok = some oc := by
  unfold optCandPairs at hk
  rw [List.mem_dedup] at hk
  obtain ⟨r, hr, hre⟩ := List.mem_map.mp hk
  have h1 : r.productId = pid := congrArg Prod.fst hre
  have h2 : r.okey = ok := congrArg Prod.snd hre
  have hmem : r ∈ optRowsFor rs pid ok := by
    rw [optRowsFor, List.mem_filter]
    refine ⟨hr, ?_⟩
    rw [Bool.and_eq_true]
    exact ⟨by simp [h1], by simp [h2]⟩
  cases hcb : candO rs pid ok with
  | none => exact absurd hcb (pickBest_ne_none hmem)
  | some oc => exact ⟨oc, rfl⟩

theorem mem_optCandPairs_of_candO {rs : List OptRaw} {pid : Nat} {ok : OptKey}
    {oc : OptRaw} (hc : candO rs pid ok = some oc) :
    (pid, ok) ∈ optCandPairs rs := by
  have hmem := pickBest_mem hc
  rcases List.mem_filter.mp hmem with ⟨hrs, hcond⟩
  rw [Bool.and_eq_true] at hcond
  unfold optCandPairs
  rw [List.mem_dedup]
  apply List.mem_map.mpr
  refine ⟨oc, hrs, ?_⟩
  rw [eq_of_beq hcond.1, eq_of_beq hcond.2]

theorem optUpdateRow_purifies {rs : List OptRaw} (now : Nat)
    (opts : List OptionRow) {pid : Nat} {ok : OptKey} {oc : OptRaw}
    (hc : candO rs pid ok = some oc) :
    ∀ q ∈ opts.map (optUpdateRow rs now), q.isCurrent = true →
      q.productId = pid → q.okey = ok → q.contentHash = oc.o.contentHash := by
  intro q hq hcur hpid hok
  obtain ⟨po, hpo, rfl⟩ := List.mem_map.mp hq
  by_cases hpc : po.isCurrent
  · cases hcand : candO rs po.productId po.okey with
    | none =>
      have hid : optUpdateRow rs now po = po := by
        simp [optUpdateRow, hpc, hcand]
      rw [hid] at hcur hpid hok
      rw [hpid, hok] at hcand
      rw [hcand] at hc
      exact absurd hc (by simp)
    | some oc' =>
      by_cases hh : po.contentHash = oc'.o.contentHash
      · have htch : optUpdateRow rs now po = { po with updatedAt := now } := by
          simp [optUpdateRow, hpc, hcand, hh]
        rw [htch] at hcur hpid hok ⊢
        have hpid' : po.productId = pid := hpid
        have hok' : po.okey = ok := hok
        rw [hpid', hok'] at hcand
        rw [hcand] at hc
        have hoc : oc' = oc := by injection hc
        show po.contentHash = oc.o.contentHash
        rw [hh, hoc]
      · have hcl : optUpdateRow rs now po = closeOption now po := by
          simp [optUpdateRow, hpc, hcand, hh]
        rw [hcl] at hcur
        simp [closeOption] at hcur
  · have hid : optUpdateRow rs now po = po := by
      simp [optUpdateRow, hpc]
    rw [hid] at hcur
    exact absurd hcur (by simp [hpc])

theorem mem_assignOptIds {x : OptionRow} {now : Nat} {cs : List OptRaw} :
    ∀ {base : Nat}, x ∈ assignOptIds base now cs →
      ∃ i oc, oc ∈ cs ∧ x = mkOptionRow i oc now := by
  induction cs with
  | nil => intro base h; simp [assignOptIds] at h
  | cons oc ocs ih =>
    intro base h
    simp only [assignOptIds, List.mem_cons] at h
    cases h with
    | inl h => exact ⟨base, oc, List.mem_cons_self oc ocs, h⟩
    | inr h =>
      obtain ⟨i, oc', hoc', rfl⟩ := ih h
      exact ⟨i, oc', List.mem_cons_of_mem oc hoc', rfl⟩

theorem optInsertFor_elem {rs : List OptRaw} {opts : List OptionRow}
    {pk : Nat × OptKey} {x : OptRaw} (hx : x ∈ optInsertFor rs opts pk) :
    candO rs pk.1 pk.2 = some x := by
  unfold optInsertFor at hx
  cases hcand : candO rs pk.1 pk.2 with
  | none => rw [hcand] at hx; simp at hx
  | some oc =>
    rw [hcand] at hx
    simp only at hx
    by_cases he : (currentOptsWithKey opts pk.1 pk.2).isEmpty
    · rw [if_pos he] at hx
      simp at hx
      rw [hx]
    · rw [if_neg he] at hx
      rw [List.mem_map] at hx
      obtain ⟨_, _, rfl⟩ := hx
      rfl

theorem currentOpts_assignOptIds (cs : List OptRaw) (now : Nat)
    (pid : Nat) (ok : OptKey) :
    ∀ base : Nat, (currentOptsWithKey (assignOptIds base now cs) pid ok).length
      = (cs.filter (fun oc => oc.productId == pid && oc.okey == ok)).length := by
  induction cs with
  | nil => intro base; simp [assignOptIds, currentOptsWithKey]
  | cons oc ocs ih =>
    intro base
    simp only [assignOptIds]
    unfold currentOptsWithKey
    simp only [List.filter_cons, mkOptionRow_isCurrent, mkOptionRow_productId,
      mkOptionRow_okey, Bool.true_and]
    by_cases hk : (oc.productId == pid && oc.okey == ok) = true
    · rw [hk]
      simp only [if_true, List.length_cons]
      have h := ih (base + 1)
      unfold currentOptsWithKey at h
      rw [h]
    · rw [Bool.not_eq_true] at hk
      rw [hk]
      simp only [Bool.false_eq_true, if_false]
      have h := ih (base + 1)
      unfold currentOptsWithKey at h
      rw [h]

theorem optStable_after (landingO : List OptionLanding) (pt : String)
    (now : Nat) (s : FinState) :
    optStable (optRaw landingO pt (baseNow pt s.products))
      (optionUpsertStep landingO pt now s).options := by
  intro pid ok oc hcand
  have hocf := candO_fields hcand
  have hsplit : currentOptsWithKey (optionUpsertStep landingO pt now s).options pid ok
      = currentOptsWithKey
          (s.options.map (optUpdateRow (optRaw landingO pt (baseNow pt s.products)) now))
          pid ok ++
        currentOptsWithKey
          (assignOptIds s.nextOid now
            (optNeedInsert (optRaw landingO pt (baseNow pt s.products)) s.options))
          pid ok := by
    show currentOptsWithKey (_ ++ _) pid ok = _
    rw [currentOptsWithKey, List.filter_append]
    rfl
  have hins_of_mem : oc ∈ optInsertFor (optRaw landingO pt (baseNow pt s.products))
      s.options (pid, ok) →
      currentOptsWithKey
        (assignOptIds s.nextOid now
          (optNeedInsert (optRaw landingO pt (baseNow pt s.products)) s.options))
        pid ok ≠ [] := by
    intro hoc hnil
    have hmemtoIns : oc ∈ optNeedInsert (optRaw landingO pt (baseNow pt s.products))
        s.options :=
      List.mem_flatMap.mpr ⟨(pid, ok), mem_optCandPairs_of_candO hcand, hoc⟩
    have hcount := currentOpts_assignOptIds
      (optNeedInsert (optRaw landingO pt (baseNow pt s.products)) s.options)
      now pid ok s.nextOid
    rw [hnil] at hcount
    have hpos : 0 < ((optNeedInsert (optRaw landingO pt (baseNow pt s.products))
        s.options).filter (fun x => x.productId == pid && x.okey == ok)).length :=
      List.length_pos_of_mem (List.mem_filter.mpr
        ⟨hmemtoIns, by simp [hocf.1, hocf.2]⟩)
    rw [← hcount] at hpos
    simp at hpos
  constructor
  · rw [hsplit]
    intro hnil
    rcases List.append_eq_nil.mp hnil with ⟨hm, hi⟩
    by_cases hpre : (currentOptsWithKey s.options pid ok).isEmpty
    · have hbranch : optInsertFor (optRaw landingO pt (baseNow pt s.products))
          s.options (pid, ok) = [oc] := by
        simp only [optInsertFor, hcand]
        rw [if_pos hpre]
      exact hins_of_mem (by rw [hbranch]; exact List.mem_singleton.mpr rfl) hi
    · rw [List.isEmpty_iff] at hpre
      rcases hx : currentOptsWithKey s.options pid ok with _ | ⟨po, rest⟩
      · exact hpre hx
      · have hpomem : po ∈ currentOptsWithKey s.options pid ok := by
          rw [hx]
          exact List.mem_cons_self po rest
        rcases List.mem_filter.mp hpomem with ⟨hpoo, hpocond⟩
        rw [Bool.and_eq_true] at hpocond
        rcases hpocond with ⟨hpocond1, hpok⟩
        rw [Bool.and_eq_true] at hpocond1
        have hpocur : po.isCurrent = true := hpocond1.1
        have hpopid : po.productId = pid := eq_of_beq hpocond1.2
        have hpookey : po.okey = ok := eq_of_beq hpok
        by_cases hh : po.contentHash = oc.o.contentHash
        · have hcand2 : candO (optRaw landingO pt (baseNow pt s.products))
              po.productId po.okey = some oc := by
            rw [hpopid, hpookey]
            exact hcand
          have htch : optUpdateRow (optRaw landingO pt (baseNow pt s.products)) now po
              = { po with updatedAt := now } := by
            simp [optUpdateRow, hpocur, hcand2, hh]
          have hqmem : ({ po with updatedAt := now } : OptionRow) ∈
              currentOptsWithKey
                (s.options.map
                  (optUpdateRow (optRaw landingO pt (baseNow pt s.products)) now))
                pid ok := by
            rw [currentOptsWithKey, List.mem_filter]
            refine ⟨?_, ?_⟩
            · rw [← htch]
              exact List.mem_map.mpr ⟨po, hpoo, rfl⟩
            · show (({ po with updatedAt := now } : OptionRow).isCurrent &&
                  ({ po with updatedAt := now } : OptionRow).productId == pid &&
                  ({ po with updatedAt := now } : OptionRow).okey == ok) = true
              have e1 : ({ po with updatedAt := now } : OptionRow).isCurrent
                  = po.isCurrent := rfl
              have e2 : ({ po with updatedAt := now } : OptionRow).productId
                  = po.productId := rfl
              have e3 : ({ po with updatedAt := now } : OptionRow).okey = po.okey := rfl
              rw [e1, e2, e3, hpocur, hpopid, hpookey]
              simp
          rw [hm] at hqmem
          simp at hqmem
        · have hbr : oc ∈ optInsertFor (optRaw landingO pt (baseNow pt s.products))
              s.options (pid, ok) := by
            simp only [optInsertFor, hcand]
            rw [if_neg (by rw [List.isEmpty_iff]; exact hpre)]
            apply List.mem_map.mpr
            refine ⟨po, ?_, rfl⟩
            rw [List.mem_filter]
            exact ⟨hpomem, by simp [hh]⟩
          exact hins_of_mem hbr hi
  · intro q hq
    rw [hsplit] at hq
    rcases List.mem_append.mp hq with hL | hR
    · rcases List.mem_filter.mp hL with ⟨hqmem, hqcond⟩
      rw [Bool.and_eq_true] at hqcond
      rcases hqcond with ⟨hqcond1, hqok⟩
      rw [Bool.and_eq_true] at hqcond1
      exact optUpdateRow_purifies now s.options hcand q hqmem hqcond1.1
        (eq_of_beq hqcond1.2) (eq_of_beq hqok)
    · rcases List.mem_filter.mp hR with ⟨hqmem, hqcond⟩
      obtain ⟨i, oc', hoc', rfl⟩ := mem_assignOptIds hqmem
      rw [Bool.and_eq_true] at hqcond
      rcases hqcond with ⟨hqcond1, hqok⟩
      rw [Bool.and_eq_true] at hqcond1
      obtain ⟨pk', hpk', hin⟩ := List.mem_flatMap.mp hoc'
      have hcand' : candO (optRaw landingO pt (baseNow pt s.products)) pk'.1 pk'.2
          = some oc' := optInsertFor_elem hin
      have hof := candO_fields hcand'
      have hq1 : oc'.productId = pid := by
        have h := eq_of_beq hqcond1.2
        rw [mkOptionRow_productId] at h
        exact h
      have hq2 : oc'.okey = ok := by
        have h := eq_of_beq hqok
        rw [mkOptionRow_okey] at h
        exact h
      have hpk1 : pk'.1 = pid := by rw [← hof.1, hq1]
      have hpk2 : pk'.2 = ok := by rw [← hof.2, hq2]
      rw [hpk1, hpk2, hcand] at hcand'
      have hocc : oc = oc' := by injection hcand'
      rw [← hocc]
      rfl

theorem map_congr_mem {α β : Type} (f g : α → β) (l : List α)
    (h : ∀ a ∈ l, f a = g a) : l.map f = l.map g := by
  induction l with
  | nil => rfl
  | cons x xs ih =>
    rw [List.map_cons, List.map_cons, h x (List.mem_cons_self x xs),
      ih (fun a ha => h a (List.mem_cons_of_mem x ha))]

theorem filter_map_comm_mem {α : Type} (f : α → α) (q : α → Bool) (l : List α)
    (h : ∀ a ∈ l, q (f a) = q a) :
    (l.map f).filter q = (l.filter q).map f := by
  induction l with
  | nil => rfl
  | cons x xs ih =>
    simp only [List.map_cons, List.filter_cons, h x (List.mem_cons_self x xs)]
    have ih' := ih (fun a ha => h a (List.mem_cons_of_mem x ha))
    by_cases hx : q x = true
    · rw [hx]
      simp only [if_true, List.map_cons, ih']
    · rw [Bool.not_eq_true] at hx
      rw [hx]
      simp only [Bool.false_eq_true, if_false, ih']

theorem optUpdateRow_updOnly_of_stable {rs : List OptRaw} {opts : List OptionRow}
    (hst : optStable rs opts) (now : Nat) (po : OptionRow) (hpo : po ∈ opts) :
    (optUpdateRow rs now po).eraseUpd = po.eraseUpd := by
  by_cases hpc : po.isCurrent
  · cases hcand : candO rs po.productId po.okey with
    | none => simp [optUpdateRow, hpc, hcand]
    | some oc =>
      have hpomem : po ∈ currentOptsWithKey opts po.productId po.okey := by
        rw [currentOptsWithKey, List.mem_filter]
        exact ⟨hpo, by simp [hpc]⟩
      have hh := (hst po.productId po.okey oc hcand).2 po hpomem
      simp [optUpdateRow, hpc, hcand, hh, OptionRow.eraseUpd]
  · simp [optUpdateRow, hpc]

theorem optNeedInsert_nil_of_stable {rs : List OptRaw} {opts : List OptionRow}
    (hst : optStable rs opts) : optNeedInsert rs opts = [] := by
  unfold optNeedInsert
  rw [List.flatMap_eq_nil_iff]
  intro pk hpk
  obtain ⟨oc, hoc⟩ := candO_isSome_of_mem_pairs
    (show (pk.1, pk.2) ∈ optCandPairs rs from hpk)
  rcases hst pk.1 pk.2 oc hoc with ⟨hne, hhash⟩
  simp only [optInsertFor, hoc]
  rw [if_neg (by rw [List.isEmpty_iff]; exact hne)]
  have hfil : (currentOptsWithKey opts pk.1 pk.2).filter
      (fun po => po.contentHash != oc.o.contentHash) = [] := by
    rw [List.filter_eq_nil_iff]
    intro po hpo
    simp [hhash po hpo]
  rw [hfil]
  rfl

theorem optionUpsertStep_of_stable {landingO : List OptionLanding} {pt : String}
    (now : Nat) (s : FinState)
    (hst : optStable (optRaw landingO pt (baseNow pt s.products)) s.options) :
    optionUpsertStep landingO pt now s
      = { s with options :=
            s.options.map (optUpdateRow (optRaw landingO pt (baseNow pt s.products)) now) } := by
  simp only [optionUpsertStep]
  rw [optNeedInsert_nil_of_stable hst]
  simp [assignOptIds]

theorem baseNow_map {f : ProductRow → ProductRow} (hf : coreFieldsPres f)
    (pt : String) (ps : List ProductRow) :
    baseNow pt (ps.map f) = baseNow pt ps := by
  unfold baseNow
  rw [filter_map_comm f _ (fun p => by
    rcases hf p with ⟨h1, h2, _, _, _, _, _⟩
    rw [h1, h2])]
  rw [List.map_map]
  apply map_congr_mem
  intro p _
  rcases hf p with ⟨_, _, h3, h4, _, h6, h7⟩
  show (⟨(f p).id, (f p).extSource, (f p).extId, (f p).dclsMonth⟩ : BaseNowRow) = _
  rw [h3, h4, h6, h7]

theorem recomputeRow_coreFields (pt : String) (now : Nat)
    (opts : List OptionRow) : coreFieldsPres (recomputeRow pt now opts) := by
  intro p
  unfold recomputeRow
  split
  · split
    · exact ⟨rfl, rfl, rfl, rfl, rfl, rfl, rfl⟩
    · exact ⟨rfl, rfl, rfl, rfl, rfl, rfl, rfl⟩
  · exact ⟨rfl, rfl, rfl, rfl, rfl, rfl, rfl⟩

theorem insertSorted_map {α : Type} (f : α → α) (le : α → α → Bool)
    (hle : ∀ a b, le (f a) (f b) = le a b) (x : α) (l : List α) :
    insertSorted le (f x) (l.map f) = (insertSorted le x l).map f := by
  induction l with
  | nil => rfl
  | cons y ys ih =>
    simp only [List.map_cons, insertSorted, hle x y]
    by_cases h : le x y = true
    · rw [h]
      simp
    · rw [Bool.not_eq_true] at h
      rw [h]
      simp only [Bool.false_eq_true, if_false, List.map_cons, ih]

theorem sortByLe_map {α : Type} (f : α → α) (le : α → α → Bool)
    (hle : ∀ a b, le (f a) (f b) = le a b) (l : List α) :
    sortByLe le (l.map f) = (sortByLe le l).map f := by
  induction l with
  | nil => rfl
  | cons x xs ih =>
    show insertSorted le (f x) (sortByLe le (xs.map f)) = _
    rw [ih]
    exact insertSorted_map f le hle x (sortByLe le xs)

theorem cmp_eraseUpd_inv (a b : OptionRow) :
    cmpOptionRow a.eraseUpd b.eraseUpd = cmpOptionRow a b := by
  cases a
  cases b
  rfl

theorem optAggPart_eraseUpd (a : OptionRow) :
    optAggPart a.eraseUpd = optAggPart a := rfl

theorem optionsAgg_eraseUpd (l : List OptionRow) :
    optionsAgg (l.map OptionRow.eraseUpd) = optionsAgg l := by
  unfold optionsAgg
  rw [sortByLe_map OptionRow.eraseUpd (fun x y => !(cmpOptionRow x y == Ordering.gt))
    (fun a b => by simp only [cmp_eraseUpd_inv]), List.map_map]
  rfl

theorem optionsAgg_of_updOnly {f : OptionRow → OptionRow} {l : List OptionRow}
    (h : ∀ po ∈ l, (f po).eraseUpd = po.eraseUpd) :
    optionsAgg (l.map f) = optionsAgg l := by
  have h1 : (l.map f).map OptionRow.eraseUpd = l.map OptionRow.eraseUpd := by
    rw [List.map_map]
    exact map_congr_mem _ _ l h
  calc optionsAgg (l.map f)
      = optionsAgg ((l.map f).map OptionRow.eraseUpd) :=
        (optionsAgg_eraseUpd (l.map f)).symm
    _ = optionsAgg (l.map OptionRow.eraseUpd) := by rw [h1]
    _ = optionsAgg l := optionsAgg_eraseUpd l

theorem currentOptsOf_views {f : OptionRow → OptionRow} {opts : List OptionRow}
    (h : ∀ po ∈ opts, (f po).eraseUpd = po.eraseUpd) (i : Nat) :
    (currentOptsOf (opts.map f) i).isEmpty = (currentOptsOf opts i).isEmpty ∧
    (currentOptsOf (opts.map f) i).length = (currentOptsOf opts i).length ∧
    optionsAgg (currentOptsOf (opts.map f) i) = optionsAgg (currentOptsOf opts i) := by
  have hcomm : currentOptsOf (opts.map f) i = (currentOptsOf opts i).map f := by
    unfold currentOptsOf
    apply filter_map_comm_mem
    intro po hpo
    have hpe := h po hpo
    have e1 : ((f po).eraseUpd).isCurrent = (po.eraseUpd).isCurrent :=
      congrArg OptionRow.isCurrent hpe
    have e2 : ((f po).eraseUpd).productId = (po.eraseUpd).productId :=
      congrArg OptionRow.productId hpe
    have e1' : (f po).isCurrent = po.isCurrent := e1
    have e2' : (f po).productId = po.productId := e2
    rw [e1', e2']
  rw [hcomm]
  refine ⟨?_, ?_, ?_⟩
  · cases hcl : currentOptsOf opts i with
    | nil => rfl
    | cons a as => rfl
  · exact List.length_map _ _
  · apply optionsAgg_of_updOnly
    intro po hpo
    exact h po (List.mem_filter.mp hpo).1

theorem setAgg_absorb (h : Option String) (c : Option Nat) (u : Nat)
    (h' : Option String) (c' : Option Nat) (u' : Nat) (p : ProductRow) :
    setAgg h c u (setAgg h' c' u' p) = setAgg h c u p := by
  cases p
  rfl

theorem setAgg_eraseUpd (h : Option String) (c : Option Nat) (u : Nat)
    (p : ProductRow) : (setAgg h c u p).eraseUpd = setAgg h c 0 p := by
  cases p
  rfl

theorem setAgg_eraseUpd_arg (h : Option String) (c : Option Nat)
    (x : ProductRow) : setAgg h c 0 x.eraseUpd = setAgg h c 0 x := by
  cases x
  rfl

theorem recomputeRow_eraseUpd_eq {pt : String} {opts₁ opts₂ : List OptionRow}
    {p t : ProductRow} {n₁ n₂ : Nat}
    (hEq : t.eraseUpd = (recomputeRow pt n₁ opts₁ p).eraseUpd)
    (hview : ∀ i : Nat,
      (currentOptsOf opts₂ i).isEmpty = (currentOptsOf opts₁ i).isEmpty ∧
      (currentOptsOf opts₂ i).length = (currentOptsOf opts₁ i).length ∧
      optionsAgg (currentOptsOf opts₂ i) = optionsAgg (currentOptsOf opts₁ i)) :
    (recomputeRow pt n₂ opts₂ t).eraseUpd = (recomputeRow pt n₁ opts₁ p).eraseUpd := by
  have hrc := recomputeRow_coreFields pt n₁ opts₁ p
  have hcur : t.isCurrent = p.isCurrent := by
    have h0 : (t.eraseUpd).isCurrent = ((recomputeRow pt n₁ opts₁ p).eraseUpd).isCurrent :=
      congrArg ProductRow.isCurrent hEq
    have h1 : t.isCurrent = (recomputeRow pt n₁ opts₁ p).isCurrent := h0
    rw [h1, hrc.1]
  have hty : t.productType = p.productType := by
    have h0 : (t.eraseUpd).productType = ((recomputeRow pt n₁ opts₁ p).eraseUpd).productType :=
      congrArg ProductRow.productType hEq
    have h1 : t.productType = (recomputeRow pt n₁ opts₁ p).productType := h0
    rw [h1, hrc.2.1]
  have hid : t.id = p.id := by
    have h0 : (t.eraseUpd).id = ((recomputeRow pt n₁ opts₁ p).eraseUpd).id :=
      congrArg ProductRow.id hEq
    have h1 : t.id = (recomputeRow pt n₁ opts₁ p).id := h0
    rw [h1, hrc.2.2.2.2.2.1]
  by_cases hcond : (p.isCurrent && p.productType == pt) = true
  · have hcondt : (t.isCurrent && t.productType == pt) = true := by
      rw [hcur, hty]
      exact hcond
    rcases hview p.id with ⟨hv1, hv2, hv3⟩
    by_cases hemp : (currentOptsOf opts₁ p.id).isEmpty = true
    · have hemp2 : (currentOptsOf opts₂ t.id).isEmpty = true := by
        rw [hid, hv1]
        exact hemp
      have e2 : recomputeRow pt n₂ opts₂ t = setAgg none (some 0) n₂ t := by
        unfold recomputeRow
        rw [if_pos hcondt, if_pos hemp2]
      have e1 : recomputeRow pt n₁ opts₁ p = setAgg none (some 0) n₁ p := by
        unfold recomputeRow
        rw [if_pos hcond, if_pos hemp]
      have hEq' : t.eraseUpd = setAgg none (some 0) 0 p := by
        rw [hEq, e1, setAgg_eraseUpd]
      rw [e2, e1, setAgg_eraseUpd, setAgg_eraseUpd]
      calc setAgg none (some 0) 0 t
          = setAgg none (some 0) 0 t.eraseUpd := (setAgg_eraseUpd_arg _ _ t).symm
        _ = setAgg none (some 0) 0 (setAgg none (some 0) 0 p) := by rw [hEq']
        _ = setAgg none (some 0) 0 p := setAgg_absorb _ _ _ _ _ _ p
    · have hemp2 : ¬(currentOptsOf opts₂ t.id).isEmpty = true := by
        rw [hid, hv1]
        exact hemp
      have e1 : recomputeRow pt n₁ opts₁ p
          = setAgg (some (optionsAgg (currentOptsOf opts₁ p.id)))
              (some (currentOptsOf opts₁ p.id).length) n₁ p := by
        unfold recomputeRow
        rw [if_pos hcond, if_neg hemp]
      have e2 : recomputeRow pt n₂ opts₂ t
          = setAgg (some (optionsAgg (currentOptsOf opts₁ p.id)))
              (some (currentOptsOf opts₁ p.id).length) n₂ t := by
        unfold recomputeRow
        rw [if_pos hcondt, if_neg hemp2, hid, hv3, hv2]
      have hEq' : t.eraseUpd = setAgg (some (optionsAgg (currentOptsOf opts₁ p.id)))
          (some (currentOptsOf opts₁ p.id).length) 0 p := by
        rw [hEq, e1, setAgg_eraseUpd]
      rw [e2, e1, setAgg_eraseUpd, setAgg_eraseUpd]
      calc setAgg (some (optionsAgg (currentOptsOf opts₁ p.id)))
            (some (currentOptsOf opts₁ p.id).length) 0 t
          = setAgg (some (optionsAgg (currentOptsOf opts₁ p.id)))
              (some (currentOptsOf opts₁ p.id).length) 0 t.eraseUpd :=
            (setAgg_eraseUpd_arg _ _ t).symm
        _ = setAgg (some (optionsAgg (currentOptsOf opts₁ p.id)))
              (some (currentOptsOf opts₁ p.id).length) 0
              (setAgg (some (optionsAgg (currentOptsOf opts₁ p.id)))
                (some (currentOptsOf opts₁ p.id).length) 0 p) := by rw [hEq']
        _ = setAgg (some (optionsAgg (currentOptsOf opts₁ p.id)))
              (some (currentOptsOf opts₁ p.id).length) 0 p :=
            setAgg_absorb _ _ _ _ _ _ p
  · have hcondt : ¬(t.isCurrent && t.productType == pt) = true := by
      rw [hcur, hty]
      exact hcond
    have e2 : recomputeRow pt n₂ opts₂ t = t := by
      unfold recomputeRow
      rw [if_neg hcondt]
    have e1 : recomputeRow pt n₁ opts₁ p = p := by
      unfold recomputeRow
      rw [if_neg hcond]
    rw [e2, e1]
    rw [e1] at hEq
    exact hEq

theorem run2_noop (landingB : List BaseLanding) (landingO : List OptionLanding)
    (pt : String) (now₂ n₁ : Nat) (bl : List ProductRow) (ol : List OptionRow)
    (np no : Nat) (hstB : baseStable landingB pt bl)
    (hstO : optStable (optRaw landingO pt (baseNow pt bl)) ol) :
    (upsert_for_type landingB landingO pt now₂
        ⟨bl.map (recomputeRow pt n₁ ol), ol, np, no⟩).eraseUpd
      = (⟨bl.map (recomputeRow pt n₁ ol), ol, np, no⟩ : FinState).eraseUpd := by
  have hstB1 : baseStable landingB pt
      ((⟨bl.map (recomputeRow pt n₁ ol), ol, np, no⟩ : FinState)).products :=
    baseStable_map (recomputeRow_coreFields pt n₁ ol) hstB
  simp only [upsert_for_type]
  rw [baseCloseStep_id_of_stable now₂ _ hstB1, baseInsertStep_id_of_stable now₂ _ hstB1]
  have hbn : baseNow pt (baseTouchStep landingB pt now₂
      (⟨bl.map (recomputeRow pt n₁ ol), ol, np, no⟩ : FinState)).products
      = baseNow pt bl := by
    show baseNow pt ((bl.map (recomputeRow pt n₁ ol)).map
      (baseTouchRow landingB pt now₂)) = baseNow pt bl
    rw [baseNow_map (updOnlyP_coreFields (baseTouchRow_updOnly landingB pt now₂)),
      baseNow_map (recomputeRow_coreFields pt n₁ ol)]
  have hstO2 : optStable (optRaw landingO pt
      (baseNow pt (baseTouchStep landingB pt now₂
        (⟨bl.map (recomputeRow pt n₁ ol), ol, np, no⟩ : FinState)).products))
      (baseTouchStep landingB pt now₂
        (⟨bl.map (recomputeRow pt n₁ ol), ol, np, no⟩ : FinState)).options := by
    rw [hbn]
    exact hstO
  rw [optionUpsertStep_of_stable now₂ _ hstO2]
  have hf₂ : ∀ po ∈ ol,
      ((optUpdateRow (optRaw landingO pt
        (baseNow pt (baseTouchStep landingB pt now₂
          (⟨bl.map (recomputeRow pt n₁ ol), ol, np, no⟩ : FinState)).products)) now₂) po).eraseUpd
      = po.eraseUpd := by
    intro po hpo
    exact optUpdateRow_updOnly_of_stable hstO2 now₂ po hpo
  unfold FinState.eraseUpd
  simp only [FinState.mk.injEq]
  refine ⟨?_, ?_, rfl, rfl⟩
  · show ((((bl.map (recomputeRow pt n₁ ol)).map (baseTouchRow landingB pt now₂)).map
        (recomputeRow pt now₂ (ol.map (optUpdateRow (optRaw landingO pt
          (baseNow pt (baseTouchStep landingB pt now₂
            (⟨bl.map (recomputeRow pt n₁ ol), ol, np, no⟩ : FinState)).products)) now₂)))).map
        ProductRow.eraseUpd)
      = (bl.map (recomputeRow pt n₁ ol)).map ProductRow.eraseUpd
    rw [List.map_map, List.map_map, List.map_map, List.map_map]
    apply map_congr_mem
    intro p hp
    show (recomputeRow pt now₂ _ (baseTouchRow landingB pt now₂
      (recomputeRow pt n₁ ol p))).eraseUpd = (recomputeRow pt n₁ ol p).eraseUpd
    apply recomputeRow_eraseUpd_eq
    · exact baseTouchRow_updOnly landingB pt now₂ (recomputeRow pt n₁ ol p)
    · intro i
      exact currentOptsOf_views hf₂ i
  · show ((ol.map (optUpdateRow (optRaw landingO pt
        (baseNow pt (baseTouchStep landingB pt now₂
          (⟨bl.map (recomputeRow pt n₁ ol), ol, np, no⟩ : FinState)).products)) now₂)).map
        OptionRow.eraseUpd)
      = ol.map OptionRow.eraseUpd
    rw [List.map_map]
    exact map_congr_mem _ _ ol hf₂

/-- Claim C2: the Core Reconciler is idempotent — for every landing-table
state and every CORE state, running `upsert_for_type` a second time on the
identical landing input leaves `core.product` and `core.product_option`
identical to the state after the first run (same rows, `is_current` flags,
content hashes, `valid_from_ts`/`valid_to_ts`, and per-entity version
counts, the serial counters included), except that `updated_at` columns may
change. -/
theorem C2_reconciler_idempotent (landingB : List BaseLanding)
    (landingO : List OptionLanding) (pt : String) (now₁ now₂ : Nat)
    (s : FinState) :
    (upsert_for_type landingB landingO pt now₂
        (upsert_for_type landingB landingO pt now₁ s)).eraseUpd
      = (upsert_for_type landingB landingO pt now₁ s).eraseUpd := by
  have hstB : baseStable landingB pt
      (baseTouchStep landingB pt now₁
        (baseInsertStep landingB pt now₁ (baseCloseStep landingB pt now₁ s))).products :=
    baseStable_after_phase landingB pt now₁ s
  have hstO := optStable_after landingO pt now₁
    (baseTouchStep landingB pt now₁
      (baseInsertStep landingB pt now₁ (baseCloseStep landingB pt now₁ s)))
  exact run2_noop landingB landingO pt now₂ now₁
    (baseTouchStep landingB pt now₁
      (baseInsertStep landingB pt now₁ (baseCloseStep landingB pt now₁ s))).products
    (optionUpsertStep landingO pt now₁
      (baseTouchStep landingB pt now₁
        (baseInsertStep landingB pt now₁ (baseCloseStep landingB pt now₁ s)))).options
    (optionUpsertStep landingO pt now₁
      (baseTouchStep landingB pt now₁
        (baseInsertStep landingB pt now₁ (baseCloseStep landingB pt now₁ s)))).nextPid
    (optionUpsertStep landingO pt now₁
      (baseTouchStep landingB pt now₁
        (baseInsertStep landingB pt now₁ (baseCloseStep landingB pt now₁ s)))).nextOid
    hstB hstO

theorem strLtB_self (x : String) : strLtB x x = false :=
  decide_eq_false (lt_irrefl _)

theorem strLtB_asymm {a b : String} (h : strLtB a b = true) :
    strLtB b a = false :=
  decide_eq_false (lt_asymm (of_decide_eq_true h))

/-- Counterexample to claim C3 as stated: for BASE entities the candidate
ordering (`BASE_CLOSE_SQL` / `BASE_INSERT_SQL` / `BASE_TOUCH_SQL`) has no
`content_hash` tie-break, so two landing rows for the same key that tie on
disclosure month and `run_ts` but differ in content hash are selected by
physical row order — the choice depends on ingestion order, and the row
with the greater hash ("zzz") is not selected from the first ordering. -/
theorem C3_counterexample :
    candB [⟨"DEPOSIT", "finlife_deposit", "P1", "pay1", "aaa", 5, some "202501"⟩,
           ⟨"DEPOSIT", "finlife_deposit", "P1", "pay2", "zzz", 5, some "202501"⟩]
        "DEPOSIT" ⟨"DEPOSIT", "finlife_deposit", "P1"⟩
      ≠ candB [⟨"DEPOSIT", "finlife_deposit", "P1", "pay2", "zzz", 5, some "202501"⟩,
           ⟨"DEPOSIT", "finlife_deposit", "P1", "pay1", "aaa", 5, some "202501"⟩]
        "DEPOSIT" ⟨"DEPOSIT", "finlife_deposit", "P1"⟩ := by
  decide

/-- Claim C3 (amended): only the OPTION reconciliation
(`OPTION_UPSERT_SQL`'s `opt_canon`) uses the full deterministic three-key
tie-break — effective period descending, observation time descending,
content hash descending — and for option rows tying on period and
observation time the greater content hash wins regardless of list order;
the BASE candidate ordering uses only the first two keys, so rows tying on
both are beyond its ordering (it ranks neither above the other). -/
theorem C3_tie_break_amended :
    (∀ a b : OptRaw, optBetter a b = claimedTieBreakO a b) ∧
    (∀ a b : OptRaw, monthKey a.effMonth = monthKey b.effMonth →
      a.o.runTs = b.o.runTs → strLtB a.o.contentHash b.o.contentHash = true →
      pickBest optBetter [a, b] = some b ∧ pickBest optBetter [b, a] = some b) ∧
    (∀ x y : BaseLanding, monthKey x.dclsMonth = monthKey y.dclsMonth →
      x.runTs = y.runTs → baseBetter x y = false) := by
  refine ⟨fun a b => rfl, ?_, ?_⟩
  · intro a b hm ht hh
    have hba : optBetter b a = true := by
      unfold optBetter
      rw [← hm, ← ht, strLtB_self, hh]
      simp
    have hab : optBetter a b = false := by
      unfold optBetter
      rw [hm, ht, strLtB_self, strLtB_asymm hh]
      simp
    constructor
    · show (match pickBest optBetter [b] with
        | none => some a
        | some y => if optBetter y a then some y else some a) = some b
      show (if optBetter b a then some b else some a) = some b
      rw [hba]
      simp
    · show (match pickBest optBetter [a] with
        | none => some b
        | some y => if optBetter y b then some y else some b) = some b
      show (if optBetter a b then some a else some b) = some b
      rw [hab]
      simp
  · intro x y hm ht
    unfold baseBetter
    rw [hm, ht, strLtB_self]
    simp

/-- Witness for C3 (amended): two concrete option candidates tying on
effective month and `run_ts` are resolved toward the greater hash from
either list order, and the base comparator ranks neither of two concrete
tying base rows above the other. -/
theorem C3_tie_break_amended_witness :
    pickBest optBetter
        [⟨⟨"DEPOSIT", "finlife_deposit", "P1", "op1", "aaa", 5, some "202501",
            some 12, some "S", none, some "3.0", some "3.5"⟩, 1, some "202501"⟩,
         ⟨⟨"DEPOSIT", "finlife_deposit", "P1", "op2", "zzz", 5, some "202501",
            some 12, some "S", none, some "3.1", some "3.6"⟩, 1, some "202501"⟩]
      = some ⟨⟨"DEPOSIT", "finlife_deposit", "P1", "op2", "zzz", 5, some "202501",
            some 12, some "S", none, some "3.1", some "3.6"⟩, 1, some "202501"⟩ ∧
    baseBetter ⟨"DEPOSIT", "finlife_deposit", "P1", "pay1", "aaa", 5, some "202501"⟩
        ⟨"DEPOSIT", "finlife_deposit", "P1", "pay2", "zzz", 5, some "202501"⟩
      = false :=
  ⟨(C3_tie_break_amended.2.1
      ⟨⟨"DEPOSIT", "finlife_deposit", "P1", "op1", "aaa", 5, some "202501",
          some 12, some "S", none, some "3.0", some "3.5"⟩, 1, some "202501"⟩
      ⟨⟨"DEPOSIT", "finlife_deposit", "P1", "op2", "zzz", 5, some "202501",
          some 12, some "S", none, some "3.1", some "3.6"⟩, 1, some "202501"⟩
      rfl rfl (by decide)).1,
   C3_tie_break_amended.2.2
      ⟨"DEPOSIT", "finlife_deposit", "P1", "pay1", "aaa", 5, some "202501"⟩
      ⟨"DEPOSIT", "finlife_deposit", "P1", "pay2", "zzz", 5, some "202501"⟩
      rfl rfl⟩

theorem contentViewP_closeRow (landing : List BaseLanding) (pt : String)
    (now : Nat) (p : ProductRow) :
    contentViewP (baseCloseRow landing pt now p) = contentViewP p := by
  by_cases hc : p.isCurrent
  · cases hcand : candB landing pt p.key with
    | none => simp [baseCloseRow, hc, hcand]
    | some c =>
      by_cases hh : p.contentHash = c.contentHash
      · simp [baseCloseRow, hc, hcand, hh]
      · simp [baseCloseRow, hc, hcand, hh, closeProduct, contentViewP]
  · simp [baseCloseRow, hc]

theorem contentViewP_of_eraseUpd {x y : ProductRow}
    (h : x.eraseUpd = y.eraseUpd) : contentViewP x = contentViewP y := by
  have h1 : contentViewP x.eraseUpd = contentViewP y.eraseUpd :=
    congrArg contentViewP h
  have h2 : ∀ z : ProductRow, contentViewP z.eraseUpd = contentViewP z := by
    intro z
    cases z
    rfl
  rw [h2, h2] at h1
  exact h1

theorem contentViewP_touchRow (landing : List BaseLanding) (pt : String)
    (now : Nat) (p : ProductRow) :
    contentViewP (baseTouchRow landing pt now p) = contentViewP p :=
  contentViewP_of_eraseUpd (baseTouchRow_updOnly landing pt now p)

theorem contentViewP_recomputeRow (pt : String) (now : Nat)
    (opts : List OptionRow) (p : ProductRow) :
    contentViewP (recomputeRow pt now opts p) = contentViewP p := by
  unfold recomputeRow
  split
  · split <;> rfl
  · rfl

theorem contentViewO_optUpdateRow (rs : List OptRaw) (now : Nat)
    (po : OptionRow) :
    contentViewO (optUpdateRow rs now po) = contentViewO po := by
  by_cases hc : po.isCurrent
  · cases hcand : candO rs po.productId po.okey with
    | none => simp [optUpdateRow, hc, hcand]
    | some oc =>
      by_cases hh : po.contentHash = oc.o.contentHash
      · simp [optUpdateRow, hc, hcand, hh, contentViewO]
      · simp [optUpdateRow, hc, hcand, hh, closeOption, contentViewO]
  · simp [optUpdateRow, hc]

theorem take_map_append {α β : Type} (A B : List α) (g : α → α) (v : α → β)
    (h : ∀ a, v (g a) = v a) :
    (((A ++ B).map g).take A.length).map v = A.map v := by
  rw [List.map_append]
  rw [List.take_left' (by rw [List.length_map])]
  rw [List.map_map]
  apply map_congr_mem
  intro a _
  exact h a

/-- Claim C4 (amended): in the finproduct CORE tables the claim holds in a
strong form — one full `upsert_for_type` pass never changes the `id`,
`content_hash`, `payload` or `valid_from_ts` of any pre-existing
`core.product` or `core.product_option` row (so in particular of any
closed row); content change is represented only by closing the old version
and inserting a new row.  (The policy pipeline's `upsert_policy` does not
satisfy this: it overwrites the conflicting row's content columns in
place — see the counterexample.) -/
theorem C4_history_immutability_amended (landingB : List BaseLanding)
    (landingO : List OptionLanding) (pt : String) (now : Nat) (s : FinState) :
    (((upsert_for_type landingB landingO pt now s).products.take
        s.products.length).map contentViewP = s.products.map contentViewP) ∧
    (((upsert_for_type landingB landingO pt now s).options.take
        s.options.length).map contentViewO = s.options.map contentViewO) := by
  constructor
  · show ((((s.products.map (baseCloseRow landingB pt now) ++
        assignIds s.nextPid now
          (baseNeedInsert landingB pt (s.products.map (baseCloseRow landingB pt now)))).map
            (baseTouchRow landingB pt now)).map
          (recomputeRow pt now
            (optionUpsertStep landingO pt now
              (baseTouchStep landingB pt now
                (baseInsertStep landingB pt now
                  (baseCloseStep landingB pt now s)))).options)).take
        s.products.length).map contentViewP
      = s.products.map contentViewP
    rw [List.map_map]
    have hlen : s.products.length = (s.products.map (baseCloseRow landingB pt now)).length :=
      (List.length_map _ _).symm
    rw [hlen, take_map_append]
    · rw [List.map_map]
      apply map_congr_mem
      intro p _
      show contentViewP (baseCloseRow landingB pt now p) = contentViewP p
      exact contentViewP_closeRow landingB pt now p
    · intro a
      show contentViewP (recomputeRow pt now _ (baseTouchRow landingB pt now a))
        = contentViewP a
      rw [contentViewP_recomputeRow, contentViewP_touchRow]
  · show ((s.options.map
        (optUpdateRow (optRaw landingO pt (baseNow pt
          (baseTouchStep landingB pt now
            (baseInsertStep landingB pt now
              (baseCloseStep landingB pt now s))).products)) now) ++
        assignOptIds _ now _).take s.options.length).map contentViewO
      = s.options.map contentViewO
    rw [List.take_left' (by rw [List.length_map])]
    rw [List.map_map]
    apply map_congr_mem
    intro po _
    exact contentViewO_optUpdateRow _ now po

/-- Counterexample to claim C7: the literal placeholder `"없음"` is not
special-cased by `analyze_special_condition` — it is sent to the external
model (one call is made), instead of short-circuiting with zero calls. -/
theorem C7_counterexample :
    ¬((analyze_special_condition true (fun _ => some {}) "없음").2 = 0) := by
  decide

/-- Claim C7 (amended): only empty or whitespace-only input short-circuits
to the all-false struct with zero external calls; the literal placeholders
`"없음"` and `"-"` are not special-cased and incur one external model call;
and when the Gemini capability is unavailable every input returns `None`
with zero calls. -/
theorem C7_blank_short_circuit_amended :
    (∀ (api : String → Option SpecialCondition) (s : String),
      s = "" ∨ pyStrip s = "" →
      analyze_special_condition true api s = (some {}, 0)) ∧
    (∀ api : String → Option SpecialCondition,
      (analyze_special_condition true api "없음").2 = 1 ∧
      (analyze_special_condition true api "-").2 = 1) ∧
    (∀ (api : String → Option SpecialCondition) (s : String),
      analyze_special_condition false api s = (none, 0)) := by
  refine ⟨?_, ?_, ?_⟩
  · intro api s hs
    unfold analyze_special_condition
    rcases hs with h | h <;> simp [h]
  · intro api
    constructor
    · unfold analyze_special_condition
      rw [if_neg (by decide), if_neg (by decide)]
      cases api "없음" <;> rfl
    · unfold analyze_special_condition
      rw [if_neg (by decide), if_neg (by decide)]
      cases api "-" <;> rfl
  · intro api s
    unfold analyze_special_condition
    rw [if_pos (by decide)]

/-- Witness for C7 (amended): whitespace input short-circuits with zero
calls, and `"없음"` incurs one call. -/
theorem C7_blank_short_circuit_amended_witness :
    analyze_special_condition true (fun _ => none) "  " = (some {}, 0) ∧
    (analyze_special_condition true (fun _ => none) "없음").2 = 1 :=
  ⟨C7_blank_short_circuit_amended.1 (fun _ => none) "  " (Or.inr (by decide)),
   (C7_blank_short_circuit_amended.2.1 (fun _ => none)).1⟩

/-- Counterexample to claim C8: when the model call fails, nothing at all
is persisted for the entity — `analyze_special_condition` makes a single
attempt (no retry loop exists), returns `None`, and
`analyze_changed_products` merely counts the failure, leaving the
`core.product_special_condition` table without any row for the entity (the
schema has no error flag column), so no all-false row with an error flag
exists. -/
theorem C8_counterexample :
    analyze_changed_products true (fun _ => none) false [1]
      [⟨1, true, some "비대면 가입 우대"⟩] [] = (0, 1, []) := by
  decide

theorem analyze_changed_single (api : String → Option SpecialCondition)
    (pid : Nat) (spcl : String) (tbl : List SpecialRow)
    (h1 : spcl ≠ "") (h2 : pyStrip spcl ≠ "") :
    analyze_changed_products true api false [pid] [⟨pid, true, some spcl⟩] tbl
      = match api spcl with
        | some c => (1, 0, save_special_condition tbl pid c)
        | none => (0, 1, tbl) := by
  have ha : analyze_special_condition true api spcl = (api spcl, 1) := by
    unfold analyze_special_condition
    rw [if_neg (by decide), if_neg (by simp [h1, h2])]
    cases api spcl <;> rfl
  unfold analyze_changed_products
  rw [if_neg (by simp)]
  have hf : List.filter (fun p => [pid].contains p.id && p.isCurrent &&
      p.spclCnd.isSome && !(p.spclCnd.getD "" == ""))
      [(⟨pid, true, some spcl⟩ : ProductSpcl)] = [⟨pid, true, some spcl⟩] := by
    simp [h1]
  rw [hf]
  rw [List.foldl_cons, List.foldl_nil]
  dsimp only
  rw [Option.getD_some, ha]

/-- Claim C8 (amended): the classifier makes exactly one attempt (there is
no retry loop); on failure nothing is persisted for that entity — the
failure is only counted and logged, and the schema has no error flag —
while a success is upserted atomically keyed by product id
(replace-on-conflict). -/
theorem C8_failure_not_persisted_amended :
    (∀ (api : String → Option SpecialCondition) (pid : Nat) (spcl : String)
        (tbl : List SpecialRow),
      spcl ≠ "" → pyStrip spcl ≠ "" → api spcl = none →
      analyze_changed_products true api false [pid] [⟨pid, true, some spcl⟩] tbl
        = (0, 1, tbl)) ∧
    (∀ (api : String → Option SpecialCondition) (pid : Nat) (spcl : String)
        (tbl : List SpecialRow) (c : SpecialCondition),
      spcl ≠ "" → pyStrip spcl ≠ "" → api spcl = some c →
      analyze_changed_products true api false [pid] [⟨pid, true, some spcl⟩] tbl
        = (1, 0, save_special_condition tbl pid c)) := by
  constructor
  · intro api pid spcl tbl h1 h2 happ
    rw [analyze_changed_single api pid spcl tbl h1 h2, happ]
  · intro api pid spcl tbl c h1 h2 happ
    rw [analyze_changed_single api pid spcl tbl h1 h2, happ]

/-- Witness for C8 (amended): a failing and a succeeding classification of
one concrete product. -/
theorem C8_failure_not_persisted_amended_witness :
    analyze_changed_products true (fun _ => none) false [7]
      [⟨7, true, some "첫거래 우대"⟩] [] = (0, 1, []) ∧
    analyze_changed_products true (fun _ => some {}) false [7]
      [⟨7, true, some "첫거래 우대"⟩] []
      = (1, 0, save_special_condition [] 7 {}) :=
  ⟨C8_failure_not_persisted_amended.1 (fun _ => none) 7 "첫거래 우대" []
      (by decide) (by decide) rfl,
   C8_failure_not_persisted_amended.2 (fun _ => some {}) 7 "첫거래 우대" [] {}
      (by decide) (by decide) rfl⟩

end FinCore

namespace PolicyCore

/-- Counterexample to claim C4: the policy pipeline's `upsert_policy` does
update content fields in place.  A changed policy (same id, new payload and
content_hash) hits the `ON CONFLICT (id) DO UPDATE` arm, which overwrites
`payload`, `content_hash`, `title` and the scalar block of the existing row
— no old version is closed and no new row is inserted, so the previous
content is lost rather than preserved as history. -/
theorem C4_counterexample :
    upsert_policy
      [⟨"R1", "R1", some "gov24", "t1", "p1", "h1", "s1", none,
        some "PERIODIC", some 1, some 2⟩]
      [⟨"R1", "R1", some "gov24", "t2", "p2", "h2", "s2",
        some "PERIODIC", some 1, some 2, [], []⟩]
      = [⟨"R1", "R1", some "gov24", "t2", "p2", "h2", "s2", none,
        some "PERIODIC", some 1, some 2⟩] := by
  decide

theorem statusCase_eq_claimed (at0 : Option String) (as0 ae0 : Option Int)
    (t : Int) : statusCase at0 as0 ae0 t = claimedStatus at0 as0 ae0 t := by
  cases at0 with
  | none => rfl
  | some a =>
    by_cases h1 : a = "ALWAYS_OPEN"
    · subst h1; rfl
    · by_cases h2 : a = "CLOSED"
      · subst h2; rfl
      · by_cases h3 : a = "PERIODIC"
        · subst h3
          cases as0 with
          | none => rfl
          | some sv =>
            cases ae0 with
            | none => rfl
            | some ev =>
              show (if sv ≤ t ∧ t ≤ ev then "OPEN"
                  else if t < sv then "UPCOMING"
                  else if ev < t then "CLOSED" else "UNKNOWN")
                = (if sv ≤ t ∧ t ≤ ev then "OPEN"
                  else if t < sv then "UPCOMING" else "CLOSED")
              by_cases hb : sv ≤ t ∧ t ≤ ev
              · rw [if_pos hb, if_pos hb]
              · rw [if_neg hb, if_neg hb]
                by_cases hu : t < sv
                · rw [if_pos hu, if_pos hu]
                · rw [if_neg hu, if_neg hu]
                  rw [if_pos (by omega)]
        · simp [statusCase, claimedStatus, h1, h2, h3]

/-- Claim C5: the status projector is a pure function of `(apply_type,
apply_start, apply_end, today)` computing exactly the claimed table — OPEN
for ALWAYS_OPEN; CLOSED for CLOSED; for PERIODIC with both bounds OPEN
inside the window, UPCOMING before it, CLOSED after it; UNKNOWN in every
other case — and `update_policy_status` stamps every row with that value. -/
theorem C5_status_projector :
    (∀ (applyType : Option String) (applyStart applyEnd : Option Int)
        (today : Int),
      statusCase applyType applyStart applyEnd today
        = claimedStatus applyType applyStart applyEnd today) ∧
    (∀ (today : Int) (rows : List PolicyRow),
      update_policy_status today rows
        = rows.map (fun r =>
            { r with
              status := some (claimedStatus r.applyType r.applyStart r.applyEnd today) })) := by
  constructor
  · exact statusCase_eq_claimed
  · intro today rows
    unfold update_policy_status
    apply FinCore.map_congr_mem
    intro r _
    rw [statusCase_eq_claimed]

theorem contains_true_of_mem {α : Type} [BEq α] [LawfulBEq α] {l : List α}
    {x : α} (h : x ∈ l) : l.contains x = true :=
  List.elem_eq_true_of_mem h

theorem contains_false_of_not_mem {α : Type} [BEq α] [LawfulBEq α]
    {l : List α} {x : α} (h : ¬ x ∈ l) : l.contains x = false := by
  rw [← Bool.not_eq_true]
  intro hc
  exact h (List.mem_of_elem_eq_true hc)

theorem sync_frame (pids : List String) (target existing : List (String × Nat))
    (q : String) (hq : ¬ q ∈ pids)
    (htgt : ∀ e ∈ target, e.1 ∈ pids) :
    ((existing ++ target.filter (fun t => !(existing.contains t))).filter
        (fun e => !(pids.contains e.1 && !(target.contains e)))).filter
      (fun e => e.1 == q)
      = existing.filter (fun e => e.1 == q) := by
  rw [List.filter_append, List.filter_append]
  have hB : ((target.filter (fun t => !(existing.contains t))).filter
      (fun e => !(pids.contains e.1 && !(target.contains e)))).filter
      (fun e => e.1 == q) = [] := by
    rw [List.filter_eq_nil]
    intro a ha
    have ha1 := (List.mem_filter.mp ha).1
    have ha2 : a ∈ target := (List.mem_filter.mp ha1).1
    have h4 : a.1 ∈ pids := htgt a ha2
    simp only [beq_iff_eq]
    intro he
    exact hq (he ▸ h4)
  have hA : ((existing.filter
      (fun e => !(pids.contains e.1 && !(target.contains e)))).filter
      (fun e => e.1 == q)) = existing.filter (fun e => e.1 == q) := by
    rw [List.filter_comm, List.filter_eq_self]
    intro a ha
    have haq : a.1 = q := by
      have := (List.mem_filter.mp ha).2
      simpa using this
    have hc : pids.contains a.1 = false := by
      rw [haq]
      exact contains_false_of_not_mem hq
    show (!(pids.contains a.1 && !(target.contains a))) = true
    rw [hc, Bool.false_and]
    exact Bool.not_false
  rw [hA, hB, List.append_nil]

theorem keywordTargetPairs_fst (kmap : List (String × Nat))
    (items : List NormalizedPolicy) :
    ∀ e ∈ keywordTargetPairs kmap items, e.1 ∈ tmpPolicyIds items := by
  intro e he
  obtain ⟨it, hit, he2⟩ := List.mem_flatMap.mp he
  obtain ⟨k, hk, he3⟩ := List.mem_filterMap.mp he2
  cases hl : kmap.lookup k with
  | none => rw [hl] at he3; exact absurd he3 (by simp)
  | some kid =>
    rw [hl] at he3
    dsimp only at he3
    by_cases hz : kid ≠ 0
    · rw [if_pos hz] at he3
      have h5 : (it.id, kid) = e := Option.some.inj he3
      rw [← h5]
      exact List.mem_map.mpr ⟨it, hit, rfl⟩
    · rw [if_neg hz] at he3
      exact absurd he3 (by simp)

theorem regionTargetPairs_fst (rmap : List (String × Nat))
    (items : List NormalizedPolicy) :
    ∀ e ∈ regionTargetPairs rmap items, e.1 ∈ tmpPolicyIds items := by
  intro e he
  obtain ⟨it, hit, he2⟩ := List.mem_flatMap.mp he
  obtain ⟨z, hz0, he3⟩ := List.mem_filterMap.mp he2
  cases hl : rmap.lookup z with
  | none => rw [hl] at he3; exact absurd he3 (by simp)
  | some rid =>
    rw [hl] at he3
    dsimp only at he3
    by_cases hz : rid ≠ 0
    · rw [if_pos hz] at he3
      have h5 : (it.id, rid) = e := Option.some.inj he3
      rw [← h5]
      exact List.mem_map.mpr ⟨it, hit, rfl⟩
    · rw [if_neg hz] at he3
      exact absurd he3 (by simp)

theorem sync_keywords_frame (kmap : List (String × Nat))
    (existing : List (String × Nat)) (items : List NormalizedPolicy)
    (q : String) (hq : ¬ q ∈ tmpPolicyIds items) :
    (sync_policy_keywords kmap existing items).2.2.filter (fun e => e.1 == q)
      = existing.filter (fun e => e.1 == q) := by
  unfold sync_policy_keywords
  by_cases he : items.isEmpty
  · rw [if_pos he]
  · rw [if_neg he]
    exact sync_frame (tmpPolicyIds items) (keywordTargetPairs kmap items)
      existing q hq (keywordTargetPairs_fst kmap items)

theorem sync_region_frame (rmap : List (String × Nat))
    (existing : List (String × Nat)) (items : List NormalizedPolicy)
    (q : String) (hq : ¬ q ∈ tmpPolicyIds items) :
    (sync_policy_region rmap existing items).2.2.filter (fun e => e.1 == q)
      = existing.filter (fun e => e.1 == q) := by
  unfold sync_policy_region
  by_cases he : items.isEmpty
  · rw [if_pos he]
  · rw [if_neg he]
    exact sync_frame (tmpPolicyIds items) (regionTargetPairs rmap items)
      existing q hq (regionTargetPairs_fst rmap items)

/-- Claim C6: when a touched policy's resolved tag set changes from
`{a, b}` to `{b, c}`, the keyword sync makes exactly one insert (the `c`
pair) and one delete (the `a` pair), leaving the `b` pair untouched; and
for any policy id not in the touched set, its association rows (keyword and
region alike) are completely unchanged by the run, because the delete is
restricted to ids present in the temp touched-set table. -/
theorem C6_association_resync :
    (∀ (kmap : List (String × Nat)) (tagB tagC : String) (a b c : Nat)
        (pid : String) (others : List (String × Nat)) (it : NormalizedPolicy),
      it.id = pid → it.keywords = [tagB, tagC] →
      kmap.lookup tagB = some b → kmap.lookup tagC = some c →
      b ≠ 0 → c ≠ 0 → a ≠ b → a ≠ c → b ≠ c →
      (∀ e ∈ others, e.1 ≠ pid) →
      sync_policy_keywords kmap (others ++ [(pid, a), (pid, b)]) [it]
        = (1, 1, others ++ [(pid, b), (pid, c)])) ∧
    (∀ (kmap existing : List (String × Nat)) (items : List NormalizedPolicy)
        (q : String),
      ¬ q ∈ tmpPolicyIds items →
      (sync_policy_keywords kmap existing items).2.2.filter
          (fun e => e.1 == q)
        = existing.filter (fun e => e.1 == q)) ∧
    (∀ (rmap existing : List (String × Nat)) (items : List NormalizedPolicy)
        (q : String),
      ¬ q ∈ tmpPolicyIds items →
      (sync_policy_region rmap existing items).2.2.filter
          (fun e => e.1 == q)
        = existing.filter (fun e => e.1 == q)) := by
  refine ⟨?_, sync_keywords_frame, sync_region_frame⟩
  intro kmap tagB tagC a b c pid others it hid hkw hB hC hbz hcz hab hac hbc hoth
  unfold sync_policy_keywords
  rw [if_neg (by simp)]
  have htgt : keywordTargetPairs kmap [it] = [(pid, b), (pid, c)] := by
    unfold keywordTargetPairs
    rw [List.flatMap_cons, List.flatMap_nil, hkw]
    simp [hB, hC, hbz, hcz, hid]
  have hpids : tmpPolicyIds [it] = [pid] := by
    simp [tmpPolicyIds, hid]
  simp only [htgt, hpids]
  have hmb : ((others ++ [(pid, a), (pid, b)]).contains (pid, b)) = true :=
    contains_true_of_mem (List.mem_append_right _ (by simp))
  have hmc : ((others ++ [(pid, a), (pid, b)]).contains (pid, c)) = false := by
    apply contains_false_of_not_mem
    intro hmem
    rcases List.mem_append.mp hmem with h | h
    · exact hoth _ h rfl
    · rcases List.mem_cons.mp h with h1 | h1
      · exact hac (congrArg Prod.snd h1).symm
      · rcases List.mem_cons.mp h1 with h2 | h2
        · exact hbc (congrArg Prod.snd h2).symm
        · exact absurd h2 (List.not_mem_nil _)
  have hins : [(pid, b), (pid, c)].filter
      (fun t => !((others ++ [(pid, a), (pid, b)]).contains t)) = [(pid, c)] := by
    simp only [List.filter_cons, List.filter_nil, hmb, hmc]
    simp
  have hca : ([(pid, b), (pid, c)].contains (pid, a)) = false := by
    apply contains_false_of_not_mem
    intro hmem
    rcases List.mem_cons.mp hmem with h1 | h1
    · exact hab (congrArg Prod.snd h1)
    · rcases List.mem_cons.mp h1 with h2 | h2
      · exact hac (congrArg Prod.snd h2)
      · exact absurd h2 (List.not_mem_nil _)
  have hcb : ([(pid, b), (pid, c)].contains (pid, b)) = true :=
    contains_true_of_mem (by simp)
  have hcc : ([(pid, b), (pid, c)].contains (pid, c)) = true :=
    contains_true_of_mem (by simp)
  have hp : ([pid].contains pid) = true := contains_true_of_mem (by simp)
  have hoth2 : ∀ e ∈ others,
      (([pid].contains e.1) && !([(pid, b), (pid, c)].contains e)) = false := by
    intro e he
    have h1 : ([pid].contains e.1) = false := by
      apply contains_false_of_not_mem
      simp only [List.mem_singleton]
      exact hoth e he
    rw [h1, Bool.false_and]
  have hdel : ((others ++ [(pid, a), (pid, b)]) ++ [(pid, c)]).filter
      (fun e => [pid].contains e.1 && !([(pid, b), (pid, c)].contains e))
      = [(pid, a)] := by
    rw [List.append_assoc, List.filter_append]
    have h0 : others.filter
        (fun e => [pid].contains e.1 && !([(pid, b), (pid, c)].contains e))
        = [] := by
      rw [List.filter_eq_nil]
      intro e he
      simp only [hoth2 e he]
      exact Bool.false_ne_true
    rw [h0, List.nil_append]
    simp [hab, hac, hbc]
  have hfin : ((others ++ [(pid, a), (pid, b)]) ++ [(pid, c)]).filter
      (fun e => !([pid].contains e.1 && !([(pid, b), (pid, c)].contains e)))
      = others ++ [(pid, b), (pid, c)] := by
    rw [List.append_assoc, List.filter_append]
    have h0 : others.filter
        (fun e => !([pid].contains e.1 && !([(pid, b), (pid, c)].contains e)))
        = others := by
      rw [List.filter_eq_self]
      intro e he
      simp only [hoth2 e he, Bool.not_false]
    rw [h0]
    simp [hab, hac, hbc]
  rw [hins, hdel, hfin]
  rfl

/-- Witness for C6: a concrete policy whose keyword tags change from
`{a, b}` to `{b, c}` (one insert, one delete, `b` kept), and a concrete
untouched policy whose keyword and region rows survive a run untouched. -/
theorem C6_association_resync_witness :
    sync_policy_keywords [("a", 1), ("b", 2), ("c", 3)]
      ([("P9", 7)] ++ [("P1", 1), ("P1", 2)])
      [⟨"P1", "P1", none, "t", "p", "h", "s", none, none, none,
        ["b", "c"], []⟩]
      = (1, 1, [("P9", 7)] ++ [("P1", 2), ("P1", 3)]) ∧
    (sync_policy_keywords [("b", 2)] [("Q7", 5)]
        [⟨"P1", "P1", none, "t", "p", "h", "s", none, none, none,
          ["b"], []⟩]).2.2.filter (fun e => e.1 == "Q7")
      = [("Q7", 5)].filter (fun e => e.1 == "Q7") ∧
    (sync_policy_region [("11000", 4)] [("Q7", 5)]
        [⟨"P1", "P1", none, "t", "p", "h", "s", none, none, none,
          [], ["11000"]⟩]).2.2.filter (fun e => e.1 == "Q7")
      = [("Q7", 5)].filter (fun e => e.1 == "Q7") :=
  ⟨C6_association_resync.1 [("a", 1), ("b", 2), ("c", 3)] "b" "c" 1 2 3
      "P1" [("P9", 7)]
      ⟨"P1", "P1", none, "t", "p", "h", "s", none, none, none, ["b", "c"], []⟩
      rfl rfl rfl rfl (by decide) (by decide) (by decide) (by decide)
      (by decide) (by decide),
   C6_association_resync.2.1 [("b", 2)] [("Q7", 5)]
      [⟨"P1", "P1", none, "t", "p", "h", "s", none, none, none, ["b"], []⟩]
      "Q7" (by decide),
   C6_association_resync.2.2 [("11000", 4)] [("Q7", 5)]
      [⟨"P1", "P1", none, "t", "p", "h", "s", none, none, none, [], ["11000"]⟩]
      "Q7" (by decide)⟩

/-- Counterexample to claim C9: the policy landing transform does NOT drop
an item whose natural key `plcyNo` is absent — `pick_policy_id` is
`str(item.get("plcyNo"))`, which yields the placeholder string `"None"`
(the surrogate-key branch is commented out), and `upsert_landing` stores a
landing row under that placeholder key. -/
theorem C9_counterexample :
    pick_policy_id [("plcyNm", "청년 주거 지원")] = "None" ∧
    prepareLandingRows [[("plcyNm", "청년 주거 지원")]]
      = [("None", record_hash [("plcyNm", "청년 주거 지원")])] := by
  constructor
  · rfl
  · rfl

/-- Claim C9 (amended): the finance base-record extractor does satisfy the
claim — every landing record it emits has a non-empty `fin_prdt_cd`
(missing or empty keys are dropped) — but the policy transform does not:
an item without `plcyNo` is kept and stored under the literal placeholder
key `"None"` produced by Python `str(None)`. -/
theorem C9_missing_key_amended :
    (∀ (page : FinCore.FinPage) (r : FinCore.BaseRecord),
      r ∈ FinCore.extract_base_records page → r.finPrdtCd ≠ "") ∧
    (∀ item : FinCore.JItem, item.lookup "plcyNo" = none →
      pick_policy_id item = "None" ∧
      prepareLandingRows [item] = [("None", record_hash item)]) := by
  constructor
  · intro page r hr
    unfold FinCore.extract_base_records at hr
    cases hpage : page.result with
    | none => rw [hpage] at hr; exact absurd hr (by simp)
    | some res =>
      rw [hpage] at hr
      obtain ⟨item, hitem, hsome⟩ := List.mem_filterMap.mp hr
      cases hl : item.lookup "fin_prdt_cd" with
      | none => rw [hl] at hsome; exact absurd hsome (by simp)
      | some cd =>
        rw [hl] at hsome
        dsimp only at hsome
        by_cases hcd : cd = ""
        · rw [if_pos hcd] at hsome
          exact absurd hsome (by simp)
        · rw [if_neg hcd] at hsome
          have h5 : (⟨cd, item, FinCore.canonicalSerialize item⟩ :
              FinCore.BaseRecord) = r := Option.some.inj hsome
          rw [← h5]
          exact hcd
  · intro item hl
    constructor
    · unfold pick_policy_id
      rw [hl]
    · unfold prepareLandingRows pick_policy_id
      rw [List.map_cons, List.map_nil, hl]

/-- Witness for C9 (amended): a concrete finance record carries its
non-empty key, and a concrete policy item without `plcyNo` lands under
`"None"`. -/
theorem C9_missing_key_amended_witness :
    (⟨"P1", [("fin_prdt_cd", "P1")], "fin_prdt_cd:P1"⟩ :
        FinCore.BaseRecord).finPrdtCd ≠ "" ∧
    (pick_policy_id [("plcyNm", "x")] = "None" ∧
      prepareLandingRows [[("plcyNm", "x")]]
        = [("None", record_hash [("plcyNm", "x")])]) :=
  ⟨C9_missing_key_amended.1 ⟨some ⟨some [[("fin_prdt_cd", "P1")]]⟩⟩
      ⟨"P1", [("fin_prdt_cd", "P1")], "fin_prdt_cd:P1"⟩ (by decide),
   C9_missing_key_amended.2 [("plcyNm", "x")] (by decide)⟩

/-- Claim C10 is false of the code: `parse_modified_datetime` is NOT total.
On a falsy input (`None` or `""`) the guarded body never binds the local
`last_external_modified`, and the function's `return` of that name raises
`UnboundLocalError`; only a non-empty string returns normally (a parsed
datetime, or `None` when `strptime` raises `ValueError`). -/
theorem C10_parse_modified_datetime :
    parse_modified_datetime none = PyResult.unboundLocalError ∧
    parse_modified_datetime (some "") = PyResult.unboundLocalError ∧
    parse_modified_datetime (some "2024-08-23 12:34:56")
      = PyResult.ok (some ⟨2024, 8, 23, 12, 34, 56⟩) ∧
    parse_modified_datetime (some "not a datetime") = PyResult.ok none := by
  refine ⟨rfl, by decide, by decide, by decide⟩

end PolicyCore
